import Mathlib

/-! # N-Queens visualizer: the interruptible search engine

A shallow embedding of `src/N-Queens.jsx`: the two animated solvers
(`solveDFSAnimated`, `solveCSPAnimated`), the step emitter (`updateBoard`,
`sleep`) and the run controller (`handleSolve`, `handlePause`, `handleStop`,
`resetBoard`).

React state and refs are the fields of `World`.  The object stored in
`solverRef.current` is a heap cell: `handles` holds the `stop` field of every
run handle allocated so far and `solverRef` is the index of the current one.
User input reaches the component only while a run is suspended in a timer of
`sleep`; `sched` lists, for every coming wait, the button presses that arrive
before each poll of `checkPause`.
-/

namespace NQueens

/-- The NxN grid: `board[row][col]` is true iff a queen stands there. -/
abbrev Board := List (List Bool)

/-- Status messages, kept structured; `Msg.render` is the text the source builds. -/
inductive Msg where
  | ready
  | starting
  | solution
  | noSolution
  | trying (row col : Nat)
  | placing (row col : Nat)
  | backtracking (row col : Nat)
  deriving DecidableEq, Repr

/-- The text of a status message; rows and columns are 0-based in `Msg`, 1-based in the text. -/
def Msg.render : Msg → String
  | .ready => "Ready to solve"
  | .starting => "Starting..."
  | .solution => "✅ Solution found!"
  | .noSolution => "No solution found."
  | .trying row col =>
      "Trying queen at Row " ++ toString (row + 1) ++ ", Column " ++ toString (col + 1)
  | .placing row col =>
      "Placing queen at Row " ++ toString (row + 1) ++ ", Column " ++ toString (col + 1)
  | .backtracking row col =>
      "Backtracking from Row " ++ toString (row + 1) ++ ", Column " ++ toString (col + 1)

/-- One published step: the board snapshot and the message handed to the presentation layer. -/
structure Step where
  board : Board
  msg : Msg
  deriving DecidableEq, Repr

inductive Algorithm where
  | csp
  | dfs
  deriving DecidableEq, Repr

/-- Button presses of the control bar. -/
inductive Event where
  | solve
  | pause
  | stop
  | reset
  deriving DecidableEq, Repr

/-- Component state: the `useState` values, the two refs, the log of published steps
and the presses still to come. -/
structure World where
  n : Nat
  algorithm : Algorithm
  board : Board
  solving : Bool
  message : Msg
  stepCount : Nat
  isPaused : Bool
  /-- The `stop` field of every run handle object allocated so far. -/
  handles : List Bool
  /-- The object `solverRef.current` points to (`none` is `null`). -/
  solverRef : Option Nat
  pausedRef : Bool
  /-- Every `(board, message)` pair passed to `setBoard`/`setMessage` by `updateBoard`, in order. -/
  published : List Step
  /-- For each coming wait: the presses arriving before its first poll, its second poll, ... -/
  sched : List (List (List Event))
  deriving DecidableEq, Repr

/-- All-false NxN grid: `Array.from({ length: n }, () => Array(n).fill(false))`. -/
def emptyBoard (n : Nat) : Board := List.replicate n (List.replicate n false)

/-- Reads `solverRef.current?.stop` (undefined, hence falsy, when there is no handle). -/
def stopFlag (w : World) : Bool :=
  match w.solverRef with
  | none => false
  | some h => w.handles.getD h false

/-- Body of `resetBoard`. -/
def resetBoard (w : World) : World :=
  { w with
    board := emptyBoard w.n
    stepCount := 0
    message := .ready
    solving := false
    isPaused := false
    pausedRef := false
    handles := match w.solverRef with
      | none => w.handles
      | some h => w.handles.set h true }

/-- Body of `handlePause`. -/
def handlePause (w : World) : World :=
  { w with pausedRef := !w.pausedRef, isPaused := !w.isPaused }

/-- Body of `handleStop`. -/
def handleStop (w : World) : World :=
  { w with
    handles := match w.solverRef with
      | none => w.handles
      | some h => w.handles.set h true
    solving := false
    isPaused := false
    pausedRef := false }

/-- The statements of `handleSolve` that precede the call of the solver: a fresh handle
object `{ stop: false }` is stored in `solverRef.current` and the counters are cleared. -/
def handleSolveStart (w : World) : World :=
  { w with
    handles := w.handles ++ [false]
    solverRef := some w.handles.length
    solving := true
    isPaused := false
    pausedRef := false
    stepCount := 0
    message := .starting }

/-- The control bar as rendered: Solve is offered only when `solving` is false, Pause and
Stop only when it is true, Reset is disabled while solving.  A press that arrives during
a wait of a run changes the component state; the search a Solve press launches is another
task and its steps are not part of the waiting run. -/
def press (e : Event) (w : World) : World :=
  match e with
  | .solve => if !w.solving then handleSolveStart w else w
  | .pause => if w.solving then handlePause w else w
  | .stop => if w.solving then handleStop w else w
  | .reset => if !w.solving then resetBoard w else w

def pressAll (es : List Event) (w : World) : World := es.foldl (fun w e => press e w) w

/-- The timer callback of `sleep`: resolves when not paused or when stopped, otherwise it
is re-armed and the next presses arrive.  `none`: the wait never ends (paused for good). -/
def checkPause : List (List Event) → World → Option World
  | [], w =>
      if !w.pausedRef && !stopFlag w then some w
      else if stopFlag w then some w
      else none
  | b :: bs, w =>
      if !w.pausedRef && !stopFlag w then some w
      else if stopFlag w then some w
      else checkPause bs (pressAll b w)

/-- The `sleep` promise: the first timer runs for the step delay, the presses of the first
batch arrive meanwhile, then `checkPause` polls. -/
def sleep (w : World) : Option World :=
  let w1 := { w with sched := w.sched.tail }
  match w.sched.head?.getD [] with
  | [] => checkPause [] w1
  | b :: bs => checkPause bs (pressAll b w1)

/-- Deep copy `newBoard.map(row => [...row])`. -/
def snapshot (b : Board) : Board := b.map fun row => row.map fun x => x

/-- Step emitter `updateBoard(newBoard, msg)`. -/
def updateBoard (newBoard : Board) (msg : Msg) (w : World) : Option (Bool × World) :=
  if stopFlag w then some (false, w)
  else
    let w1 := { w with
      board := snapshot newBoard
      message := msg
      stepCount := w.stepCount + 1
      published := w.published ++ [⟨snapshot newBoard, msg⟩] }
    match sleep w1 with
    | none => none
    | some w2 => some (!stopFlag w2, w2)

/-- Assignment `boardState[row][col] = v`. -/
def setCell (b : Board) (row col : Nat) (v : Bool) : Board :=
  match b[row]? with
  | some r => b.set row (r.set col v)
  | none => b

/-- Read `boardState[row][col]` as a condition (undefined is falsy). -/
def getCell (b : Board) (row col : Nat) : Bool :=
  match b[row]? with
  | some r => r.getD col false
  | none => false

/-! ## DFS backtracking -/

/-- Local variables of `solveDFSAnimated`. -/
structure DfsState where
  queenPositions : List Int
  boardState : Board
  deriving DecidableEq, Repr

/-- Closure `isSafe(row, col)`: the loop over `i < row` returns false at the first conflict. -/
def isSafe (queenPositions : List Int) (row col : Nat) : Bool :=
  (List.range row).all fun i =>
    match queenPositions[i]? with
    | none => true
    | some q =>
        if q = (col : Int) then false
        else if (q - (col : Int)).natAbs = ((i : Int) - (row : Int)).natAbs then false
        else true

/-- The `for (let col = 0; col < n; col++)` loop of `dfs(row)`, over the columns still to
try; `dfsNext` is the recursive call `dfs(row + 1)`. -/
def dfsLoop (dfsNext : DfsState → World → Option (Bool × DfsState × World)) (row : Nat) :
    List Nat → DfsState → World → Option (Bool × DfsState × World)
  | [], s, w => some (false, s, w)
  | col :: cols, s, w =>
      if stopFlag w then some (false, s, w)
      else if isSafe s.queenPositions row col then
        let s1 : DfsState :=
          { queenPositions := s.queenPositions.set row (col : Int)
            boardState := setCell s.boardState row col true }
        match updateBoard s1.boardState (.trying row col) w with
        | none => none
        | some (cont, w1) =>
          if !cont then some (false, s1, w1)
          else
            match dfsNext s1 w1 with
            | none => none
            | some (found, s2, w2) =>
              if found then some (true, s2, w2)
              else
                let s3 : DfsState :=
                  { queenPositions := s2.queenPositions.set row (-1)
                    boardState := setCell s2.boardState row col false }
                match updateBoard s3.boardState (.backtracking row col) w2 with
                | none => none
                | some (cont2, w3) =>
                  if !cont2 then some (false, s3, w3)
                  else dfsLoop dfsNext row cols s3 w3
      else dfsLoop dfsNext row cols s w

/-- Closure `dfs(row)`; the first argument bounds the recursion depth (`none` when it is
used up). -/
def dfs (n : Nat) : Nat → Nat → DfsState → World → Option (Bool × DfsState × World)
  | 0, _, _, _ => none
  | fuel + 1, row, s, w =>
      if stopFlag w then some (false, s, w)
      else if row = n then
        match updateBoard s.boardState .solution w with
        | none => none
        | some (_, w1) => some (true, s, w1)
      else dfsLoop (dfs n fuel (row + 1)) row (List.range n) s w

/-- Initial locals of `solveDFSAnimated`. -/
def dfsInit (n : Nat) : DfsState :=
  { queenPositions := List.replicate n (-1), boardState := emptyBoard n }

/-- The call `dfs(0)` of `solveDFSAnimated`. -/
def dfsRun (w : World) : Option (Bool × DfsState × World) :=
  dfs w.n (w.n + 1) 0 (dfsInit w.n) w

/-- Body of `solveDFSAnimated`. -/
def solveDFSAnimated (w : World) : Option World :=
  match dfsRun w with
  | none => none
  | some (result, _, w1) =>
      if !result && !stopFlag w1 then some { w1 with message := .noSolution } else some w1

/-! ## CSP with constraint propagation -/

/-- Closure `propagateConstraints(rRow, col, currentDomain)`. -/
def propagateConstraints (n rRow col : Nat) (currentDomain : List (List Nat)) : List (List Nat) :=
  let newDomain := currentDomain.map fun d => d
  let newDomain := (List.range n).foldl
    (fun nd j => if col ≠ j then nd.set j ((nd.getD j []).filter fun x => x ≠ rRow) else nd)
    newDomain
  let newDomain := (List.range n).foldl
    (fun nd k =>
      if col ≠ k then
        let diff : Int := (((col : Int) - (k : Int)).natAbs : Int)
        nd.set k ((nd.getD k []).filter fun x =>
          (x : Int) ≠ (rRow : Int) - diff ∧ (x : Int) ≠ (rRow : Int) + diff)
      else nd)
    newDomain
  newDomain

/-- Local state of `solveCSPAnimated`: the live board, and two records kept for the
analysis only (the code does not have them): the arguments and live board of every call
of `solve`, and the candidate row, column and live board at every evaluation of the
guard `!boardState[row][col]`. -/
structure CspState where
  boardState : Board
  calls : List (Nat × List (List Nat) × Board)
  guards : List (Nat × Nat × Board)
  deriving DecidableEq, Repr

/-- The `for (let row of currentDomain[col])` loop of `solve`: `rows` is what is left of the
array being iterated, `currentDomain` the variable the body reassigns; `solveNext` is the
recursive call `solve(col + 1, ·)`. -/
def solveLoop (n : Nat)
    (solveNext : List (List Nat) → CspState → World → Option (Bool × CspState × World))
    (col : Nat) :
    List Nat → List (List Nat) → CspState → World → Option (Bool × CspState × World)
  | [], _, s, w => some (false, s, w)
  | row :: rows, currentDomain, s, w =>
      if stopFlag w then some (false, s, w)
      else
        let s0 : CspState := { s with guards := s.guards ++ [(row, col, s.boardState)] }
        if !getCell s0.boardState row col then
          let s1 : CspState := { s0 with boardState := setCell s0.boardState row col true }
          match updateBoard s1.boardState (.placing row col) w with
          | none => none
          | some (cont, w1) =>
            if !cont then some (false, s1, w1)
            else
              let savedDomain := currentDomain.map fun d => d
              let newDomain := propagateConstraints n row col currentDomain
              match solveNext newDomain s1 w1 with
              | none => none
              | some (found, s2, w2) =>
                if found then some (true, s2, w2)
                else
                  let s3 : CspState := { s2 with boardState := setCell s2.boardState row col false }
                  match updateBoard s3.boardState (.backtracking row col) w2 with
                  | none => none
                  | some (cont2, w3) =>
                    if !cont2 then some (false, s3, w3)
                    else solveLoop n solveNext col rows savedDomain s3 w3
        else solveLoop n solveNext col rows currentDomain s0 w

/-- Closure `solve(col, currentDomain)`; the first argument bounds the recursion depth. -/
def solve (n : Nat) :
    Nat → Nat → List (List Nat) → CspState → World → Option (Bool × CspState × World)
  | 0, _, _, _, _ => none
  | fuel + 1, col, currentDomain, s, w =>
      let s0 : CspState := { s with calls := s.calls ++ [(col, currentDomain, s.boardState)] }
      if stopFlag w then some (false, s0, w)
      else if col = n then
        match updateBoard s0.boardState .solution w with
        | none => none
        | some (_, w1) => some (true, s0, w1)
      else solveLoop n (solve n fuel (col + 1)) col (currentDomain.getD col []) currentDomain
        s0 w

/-- Initial `domain` of `solveCSPAnimated`: every column may take every row. -/
def fullDomain (n : Nat) : List (List Nat) := List.replicate n (List.range n)

/-- Initial locals of `solveCSPAnimated`. -/
def cspInit (n : Nat) : CspState :=
  { boardState := emptyBoard n, calls := [], guards := [] }

/-- The call `solve(0, domain)` of `solveCSPAnimated`. -/
def cspRun (w : World) : Option (Bool × CspState × World) :=
  solve w.n (w.n + 1) 0 (fullDomain w.n) (cspInit w.n) w

/-- Body of `solveCSPAnimated`. -/
def solveCSPAnimated (w : World) : Option World :=
  match cspRun w with
  | none => none
  | some (result, _, w1) =>
      if !result && !stopFlag w1 then some { w1 with message := .noSolution } else some w1

/-- Body of `handleSolve`: start a run, await the selected solver, clear `solving`. -/
def handleSolve (w : World) : Option World :=
  let w1 := handleSolveStart w
  match (if w1.algorithm = .csp then solveCSPAnimated w1 else solveDFSAnimated w1) with
  | none => none
  | some w2 => some { w2 with solving := false }

/-- The component right after mount with board size `n`: `resetBoard` has run once. -/
def initWorld (n : Nat) (alg : Algorithm) (sched : List (List (List Event))) : World :=
  { n := n, algorithm := alg, board := emptyBoard n, solving := false, message := .ready,
    stepCount := 0, isPaused := false, handles := [], solverRef := none, pausedRef := false,
    published := [], sched := sched }

/-! ## Traces of the searches -/

/-- What `updateBoard` does to the component state before it waits. -/
def publish (st : Step) (w : World) : World :=
  { w with
    board := st.board
    message := st.msg
    stepCount := w.stepCount + 1
    published := w.published ++ [st] }

/-- Publishing a list of steps one after the other, each followed by its wait, until the
stop flag is seen set. -/
def replay : List Step → World → Option World
  | [], w => some w
  | st :: rest, w =>
      if stopFlag w then some w
      else
        match sleep (publish st w) with
        | none => none
        | some w1 => replay rest w1

/-- The loop of `dfs(row)` when the stop flag is never set: result, final locals and the
steps handed to `updateBoard`, in order. -/
def dfsLoopT (dfsNextT : DfsState → Bool × DfsState × List Step) (row : Nat) :
    List Nat → DfsState → Bool × DfsState × List Step
  | [], s => (false, s, [])
  | col :: cols, s =>
      if isSafe s.queenPositions row col then
        let s1 : DfsState :=
          { queenPositions := s.queenPositions.set row (col : Int)
            boardState := setCell s.boardState row col true }
        let r := dfsNextT s1
        if r.1 then (true, r.2.1, ⟨s1.boardState, .trying row col⟩ :: r.2.2)
        else
          let s3 : DfsState :=
            { queenPositions := r.2.1.queenPositions.set row (-1)
              boardState := setCell r.2.1.boardState row col false }
          let r2 := dfsLoopT dfsNextT row cols s3
          (r2.1, r2.2.1,
            ⟨s1.boardState, .trying row col⟩ ::
              (r.2.2 ++ ⟨s3.boardState, .backtracking row col⟩ :: r2.2.2))
      else dfsLoopT dfsNextT row cols s

/-- The call `dfs(row)` when the stop flag is never set. -/
def dfsT (n : Nat) : Nat → Nat → DfsState → Bool × DfsState × List Step
  | 0, _, s => (false, s, [])
  | fuel + 1, row, s =>
      if row = n then (true, s, [⟨s.boardState, .solution⟩])
      else dfsLoopT (dfsT n fuel (row + 1)) row (List.range n) s

/-- The loop of `solve(col, currentDomain)` when the stop flag is never set. -/
def solveLoopT (n : Nat)
    (solveNextT : List (List Nat) → CspState → Bool × CspState × List Step) (col : Nat) :
    List Nat → List (List Nat) → CspState → Bool × CspState × List Step
  | [], _, s => (false, s, [])
  | row :: rows, currentDomain, s =>
      let s0 : CspState := { s with guards := s.guards ++ [(row, col, s.boardState)] }
      if !getCell s0.boardState row col then
        let s1 : CspState := { s0 with boardState := setCell s0.boardState row col true }
        let r := solveNextT (propagateConstraints n row col currentDomain) s1
        if r.1 then (true, r.2.1, ⟨s1.boardState, .placing row col⟩ :: r.2.2)
        else
          let s3 : CspState :=
            { r.2.1 with boardState := setCell r.2.1.boardState row col false }
          let r2 := solveLoopT n solveNextT col rows (currentDomain.map fun d => d) s3
          (r2.1, r2.2.1,
            ⟨s1.boardState, .placing row col⟩ ::
              (r.2.2 ++ ⟨s3.boardState, .backtracking row col⟩ :: r2.2.2))
      else solveLoopT n solveNextT col rows currentDomain s0

/-- The call `solve(col, currentDomain)` when the stop flag is never set. -/
def solveT (n : Nat) : Nat → Nat → List (List Nat) → CspState → Bool × CspState × List Step
  | 0, _, _, s => (false, s, [])
  | fuel + 1, col, currentDomain, s =>
      let s0 : CspState := { s with calls := s.calls ++ [(col, currentDomain, s.boardState)] }
      if col = n then (true, s0, [⟨s0.boardState, .solution⟩])
      else solveLoopT n (solveT n fuel (col + 1)) col (currentDomain.getD col []) currentDomain s0

/-- A run follows a trace: the component state it ends in is the replay of the trace, and
unless the stop flag is set at the end it returns the result and locals of the trace. -/
def SimAt {σ : Type} (o : Option (Bool × σ × World)) (p : Bool × σ × List Step) (w : World) :
    Prop :=
  match replay p.2.2 w with
  | none => o = none
  | some w1 => ∃ r s, o = some (r, s, w1) ∧ (stopFlag w1 = false → r = p.1 ∧ s = p.2.1)

/-- Publishing steps one after the other with no wait in between. -/
def publishAll (steps : List Step) (w : World) : World :=
  steps.foldl (fun w st => publish st w) w

/-- Every press of a wait is a press of Pause/Resume. -/
def pausesOnly (entry : List (List Event)) : Bool :=
  entry.all fun b => b.all fun e => e == Event.pause

/-- Whether a poll finds the run resumed, now (`p` false) or after later presses. -/
def resumes : Bool → List (List Event) → Bool
  | p, [] => !p
  | p, b :: bs => !p || resumes (p ^^ decide (b.length % 2 = 1)) bs

/-- Whether the wait with these Pause/Resume presses comes to an end. -/
def waitEnds (entry : List (List Event)) : Bool :=
  match entry with
  | [] => true
  | b :: bs => resumes (decide (b.length % 2 = 1)) bs

/-- A schedule of Pause/Resume presses only, in which every pause is resumed. -/
def calm (sched : List (List (List Event))) : Bool :=
  sched.all fun entry => pausesOnly entry && waitEnds entry

/-- The run `handleSolve` starts on a freshly mounted component with the given presses. -/
def runWith (n : Nat) (alg : Algorithm) (sched : List (List (List Event))) : Option World :=
  handleSolve (initWorld n alg sched)

/-- The steps published by the run nobody interrupts. -/
def trace (n : Nat) (alg : Algorithm) : List Step :=
  match runWith n alg [] with
  | some w => w.published
  | none => []

/-- The steps `dfs(0)`/`solve(0, domain)` hand to `updateBoard` when the stop flag is never set. -/
def pureTrace (n : Nat) (alg : Algorithm) : List Step :=
  match alg with
  | .dfs => (dfsT n (n + 1) 0 (dfsInit n)).2.2
  | .csp => (solveT n (n + 1) 0 (fullDomain n) (cspInit n)).2.2

/-- The result of `dfs(0)`/`solve(0, domain)` when the stop flag is never set. -/
def pureResult (n : Nat) (alg : Algorithm) : Bool :=
  match alg with
  | .dfs => (dfsT n (n + 1) 0 (dfsInit n)).1
  | .csp => (solveT n (n + 1) 0 (fullDomain n) (cspInit n)).1

/-- What `handleSolve` and the solver body do once the search has returned `r`. -/
def finish (r : Bool) (w : World) : World :=
  { (if !r && !stopFlag w then { w with message := .noSolution } else w) with solving := false }

/-- The search of the selected algorithm as `handleSolve` starts it: its result, the live
board it leaves and the component state. -/
def searchRun (w : World) : Option (Bool × Board × World) :=
  match w.algorithm with
  | .dfs => (dfsRun w).map fun r => (r.1, r.2.1.boardState, r.2.2)
  | .csp => (cspRun w).map fun r => (r.1, r.2.1.boardState, r.2.2)

/-- The cells `(row, col)` (0-based) holding a queen, row by row. -/
def queenCells (b : Board) : List (Nat × Nat) :=
  (List.range b.length).flatMap fun r =>
    ((List.range (b.getD r []).length).filter fun c => getCell b r c).map fun c => (r, c)

/-- Number of queens on a board. -/
def queenCount (b : Board) : Nat := (b.map fun row => row.count true).sum

/-- No two queens of the board share a row, a column or a diagonal. -/
def Peaceful (b : Board) : Prop :=
  ∀ r1 c1 r2 c2, getCell b r1 c1 = true → getCell b r2 c2 = true → (r1, c1) ≠ (r2, c2) →
    r1 ≠ r2 ∧ c1 ≠ c2 ∧ r1 + c1 ≠ r2 + c2 ∧ r1 + c2 ≠ r2 + c1

/-- Rows and columns of a square board swapped. -/
def transposeBoard (b : Board) : Board :=
  (List.range b.length).map fun r => (List.range b.length).map fun c => getCell b c r

/-- A DFS message read with rows and columns swapped, as the CSP search words it. -/
def swapMsg : Msg → Msg
  | .trying row col => .placing col row
  | .backtracking row col => .backtracking col row
  | m => m

/-- A DFS step read with rows and columns swapped. -/
def swapStep (st : Step) : Step := ⟨transposeBoard st.board, swapMsg st.msg⟩

/-- A controller state in the middle of a run: five steps published, `solving` true. -/
def midRun : World :=
  { handleSolveStart (initWorld 4 .dfs []) with stepCount := 5, message := .trying 2 1 }

/-! ## Partial placements

A partial placement is the list `p` of the values chosen so far: for the DFS search
`p[i]` is the column of the queen of row `i`, for the CSP search the row of the queen of
column `i`. -/

/-- The NxN board with a queen on `(r, c)` iff `f r c`. -/
def mkBoard (n : Nat) (f : Nat → Nat → Bool) : Board :=
  (List.range n).map fun r => (List.range n).map fun c => f r c

/-- The live board of the DFS search at placement `p`. -/
def rowBoard (n : Nat) (p : List Nat) : Board := mkBoard n fun r c => decide (p[r]? = some c)

/-- The live board of the CSP search at placement `p`. -/
def colBoard (n : Nat) (p : List Nat) : Board := mkBoard n fun r c => decide (p[c]? = some r)

/-- The array `queenPositions` of the DFS search at placement `p`. -/
def qpOf (n : Nat) (p : List Nat) : List Int :=
  (List.range n).map fun i =>
    match (p[i]? : Option Nat) with
    | some c => (c : Int)
    | none => -1

/-- The locals of the DFS search at placement `p`. -/
def dfsStateOf (n : Nat) (p : List Nat) : DfsState := ⟨qpOf n p, rowBoard n p⟩

/-- Value `v` at index `j` meets no value of `p` on a line or a diagonal. -/
def compat (p : List Nat) (j v : Nat) : Bool :=
  (List.range p.length).all fun i =>
    match p[i]? with
    | none => true
    | some q => decide (q ≠ v ∧ ((q : Int) - (v : Int)).natAbs ≠ ((i : Int) - (j : Int)).natAbs)

/-- First complete placement reached from `p` trying the candidates in order. -/
def findLoop (next : List Nat → Option (List Nat)) : List Nat → List Nat → Option (List Nat)
  | [], _ => none
  | v :: vs, p =>
      if compat p p.length v then
        match next (p ++ [v]) with
        | some f => some f
        | none => findLoop next vs p
      else findLoop next vs p

/-- First complete placement extending `p`, values tried in increasing order. -/
def findSol (n : Nat) : Nat → List Nat → Option (List Nat)
  | 0, _ => none
  | fuel + 1, p =>
      if p.length = n then some p else findLoop (findSol n fuel) (List.range n) p

/-- The domains of the columns not yet filled hold exactly the rows compatible with `p`. -/
def DomOK (n : Nat) (p : List Nat) (dom : List (List Nat)) : Prop :=
  dom.length = n ∧
    ∀ j, p.length ≤ j → j < n → dom[j]? = some ((List.range n).filter fun r => compat p j r)

/-- The `queenPositions` array of the transposed board: for every column the row of its
queen, or -1. -/
def columnQueens (b : Board) : List Int :=
  (List.range b.length).map fun c =>
    match (List.range b.length).find? fun r => getCell b r c with
    | some r => (r : Int)
    | none => -1

/-- No two values of the placement are on a common line or diagonal. -/
def Safe (f : List Nat) : Prop :=
  ∀ i j, i < j → j < f.length →
    f.getD i 0 ≠ f.getD j 0 ∧ f.getD i 0 + (j - i) ≠ f.getD j 0 ∧
      f.getD j 0 + (j - i) ≠ f.getD i 0

/-- An explicit solution: the value at index `p` on an `n`x`n` board. -/
def witnessCol (n p : Nat) : Nat :=
  if n % 6 = 2 then
    if p < n / 2 then 2 * p + 1
    else if p - n / 2 = 0 then 2
    else if p - n / 2 = 1 then 0
    else if p - n / 2 = n / 2 - 1 then 4
    else 2 * (p - n / 2) + 2
  else if n % 6 = 3 then
    if p < n / 2 - 1 then 2 * p + 3
    else if p = n / 2 - 1 then 1
    else if p - n / 2 < n / 2 - 1 then 2 * (p - n / 2) + 4
    else if p - n / 2 = n / 2 - 1 then 0
    else 2
  else
    if p < n / 2 then 2 * p + 1 else 2 * (p - n / 2)

/-- A recorded call `solve(col, currentDomain)` made at a placement `p` of the first `col`
columns: the live board is that of `p` and the domains of the columns from `col` on hold
exactly the rows compatible with `p`. -/
def GoodCall (n : Nat) (e : Nat × List (List Nat) × Board) : Prop :=
  ∃ p : List Nat, p.length = e.1 ∧ p.length ≤ n ∧ (∀ x ∈ p, x < n) ∧
    e.2.2 = colBoard n p ∧ DomOK n p e.2.1

/-- A recorded guard evaluation made at a placement `p` with a candidate row compatible
with `p`. -/
def GoodGuard (n : Nat) (g : Nat × Nat × Board) : Prop :=
  ∃ p : List Nat, p.length = g.2.1 ∧ g.2.2 = colBoard n p ∧ compat p p.length g.1 = true

/-- Number of "Placing queen" steps of a trace. -/
def placings (t : List Step) : Nat :=
  t.countP fun st =>
    match st.msg with
    | .placing _ _ => true
    | _ => false

/-- The CSP search `R` from locals `s` mirrors the DFS search `D`: same result, the DFS
steps with rows and columns swapped, the live board of placement `final` at the end,
every newly recorded call and guard evaluation is a good one, and every guard evaluation
is followed by a placement. -/
def CspMatches (n : Nat) (R : Bool × CspState × List Step) (D : Bool × DfsState × List Step)
    (s : CspState) (final : List Nat) : Prop :=
  R.1 = D.1 ∧ R.2.2 = D.2.2.map swapStep ∧ R.2.1.boardState = colBoard n final ∧
    (∀ e ∈ R.2.1.calls, e ∈ s.calls ∨ GoodCall n e) ∧
    (∀ g ∈ R.2.1.guards, g ∈ s.guards ∨ GoodGuard n g) ∧
    s.calls <+: R.2.1.calls ∧ R.2.1.guards.length = s.guards.length + placings R.2.2

/-- The uninterrupted run for board size `n` fails having undone every placement: the
search returns false and leaves the live board all-clear, the message ends as
"No solution found.", no "Solution found" step is published, and the last published
board and the board shown at the end are all-clear. -/
def NoSolutionRun (n : Nat) (alg : Algorithm) : Prop :=
  ((searchRun (handleSolveStart (initWorld n alg []))).map fun r => (r.1, r.2.1))
      = some (false, emptyBoard n) ∧
    ((runWith n alg []).map fun w => (w.message, w.solving)) = some (Msg.noSolution, false) ∧
    ((runWith n alg []).map fun w => w.message.render) = some "No solution found." ∧
    (∀ st ∈ trace n alg, st.msg ≠ Msg.solution) ∧
    ((trace n alg).getLast?.map fun st => st.board) = some (emptyBoard n) ∧
    ((runWith n alg []).map fun w => w.board) = some (emptyBoard n)

/-! ## The step emitter and replay -/

theorem snapshot_eq (b : Board) : snapshot b = b := by
  simp [snapshot]

theorem updateBoard_eq (b : Board) (m : Msg) (w : World) :
    updateBoard b m w =
      if stopFlag w then some (false, w)
      else (sleep (publish ⟨b, m⟩ w)).map fun w2 => (!stopFlag w2, w2) := by
  unfold updateBoard publish
  simp only [snapshot_eq]
  split
  · rfl
  · cases sleep _ <;> rfl

theorem replay_stopped (t : List Step) (w : World) (h : stopFlag w = true) :
    replay t w = some w := by
  cases t with
  | nil => rfl
  | cons st rest => simp [replay, h]

theorem replay_append (t1 t2 : List Step) (w : World) :
    replay (t1 ++ t2) w = (replay t1 w).bind (replay t2) := by
  induction t1 generalizing w with
  | nil => simp [replay]
  | cons st rest ih =>
    simp only [List.cons_append, replay]
    by_cases h : stopFlag w = true
    · simp [h, replay_stopped]
    · simp only [h]
      cases hs : sleep (publish st w) with
      | none => simp
      | some w1 => simpa using ih w1

theorem simAt_stopped {σ : Type} (r : Bool) (s : σ) (p : Bool × σ × List Step) (w : World)
    (h : stopFlag w = true) : SimAt (some (r, s, w)) p w := by
  unfold SimAt
  rw [replay_stopped _ _ h]
  exact ⟨r, s, rfl, fun h2 => by simp [h] at h2⟩

theorem simAt_ret {σ : Type} (r : Bool) (s : σ) (w : World) :
    SimAt (some (r, s, w)) (r, s, []) w := by
  unfold SimAt
  exact ⟨r, s, rfl, fun _ => ⟨rfl, rfl⟩⟩

/-- A step followed by a continuation. -/
theorem simAt_step {σ : Type} (b : Board) (m : Msg) (s1 : σ)
    (k : World → Option (Bool × σ × World)) (r : Bool) (s : σ) (t : List Step) (w : World)
    (hk : ∀ w2, SimAt (k w2) (r, s, t) w2) :
    SimAt (match updateBoard b m w with
      | none => none
      | some (cont, w1) => if !cont then some (false, s1, w1) else k w1)
      (r, s, ⟨b, m⟩ :: t) w := by
  rw [updateBoard_eq]
  by_cases h : stopFlag w = true
  · simp only [h, if_true]
    exact simAt_stopped _ _ _ _ h
  · simp only [h]
    unfold SimAt
    simp only [replay, h]
    cases hs : sleep (publish ⟨b, m⟩ w) with
    | none => simp
    | some w2 =>
      simp only [Option.map_some']
      by_cases h2 : stopFlag w2 = true
      · simp only [h2, Bool.not_true, Bool.not_false, if_true]
        have := simAt_stopped false s1 (r, s, t) w2 h2
        simpa [SimAt] using this
      · simp only [h2, Bool.not_false, Bool.not_true]
        have := hk w2
        simpa [SimAt] using this

/-- The last step of a successful search: the result of `updateBoard` is ignored. -/
theorem simAt_last {σ : Type} (b : Board) (m : Msg) (s : σ) (w : World) :
    SimAt (match updateBoard b m w with
      | none => none
      | some (_, w1) => some (true, s, w1))
      (true, s, [⟨b, m⟩]) w := by
  rw [updateBoard_eq]
  by_cases h : stopFlag w = true
  · simp only [h, if_true]
    exact simAt_stopped _ _ _ _ h
  · simp only [h]
    unfold SimAt
    simp only [replay, h]
    cases hs : sleep (publish ⟨b, m⟩ w) with
    | none => simp
    | some w2 => simp

/-- A call followed by a continuation that looks at its result. -/
theorem simAt_bind {σ : Type} (o : Option (Bool × σ × World))
    (k : Bool → σ → World → Option (Bool × σ × World))
    (p : Bool × σ × List Step) (q : Bool × σ × List Step) (w : World)
    (ho : SimAt o p w)
    (hk : ∀ w1, SimAt (k p.1 p.2.1 w1) q w1)
    (hstop : ∀ r s w1, stopFlag w1 = true → ∃ r2 s2, k r s w1 = some (r2, s2, w1)) :
    SimAt (match o with
      | none => none
      | some (r, s, w1) => k r s w1)
      (q.1, q.2.1, p.2.2 ++ q.2.2) w := by
  unfold SimAt at ho ⊢
  simp only [replay_append]
  cases hr : replay p.2.2 w with
  | none =>
    rw [hr] at ho
    simp [ho]
  | some w1 =>
    rw [hr] at ho
    obtain ⟨r, s, ho, hrs⟩ := ho
    subst ho
    simp only [Option.some_bind]
    by_cases h1 : stopFlag w1 = true
    · obtain ⟨r2, s2, hk2⟩ := hstop r s w1 h1
      rw [replay_stopped _ _ h1, hk2]
      exact ⟨r2, s2, rfl, fun h2 => by simp [h1] at h2⟩
    · have h1f : stopFlag w1 = false := by simpa using h1
      obtain ⟨rfl, rfl⟩ := hrs h1f
      exact hk w1

theorem simAt_stop_some {σ : Type} (o : Option (Bool × σ × World)) (p : Bool × σ × List Step)
    (w : World) (ho : SimAt o p w) (h : stopFlag w = true) : ∃ r s, o = some (r, s, w) := by
  unfold SimAt at ho
  rw [replay_stopped _ _ h] at ho
  obtain ⟨r, s, ho, _⟩ := ho
  exact ⟨r, s, ho⟩

/-- One trial of a search loop: place, publish, recurse, and on failure undo, publish and
go on with the rest of the loop. -/
theorem simAt_trial {σ : Type}
    (next : σ → World → Option (Bool × σ × World)) (nextT : σ → Bool × σ × List Step)
    (rest : σ → World → Option (Bool × σ × World)) (restT : σ → Bool × σ × List Step)
    (undo : σ → σ) (bd : σ → Board) (m1 m2 : Msg) (s1 : σ) (w : World)
    (hnext : ∀ s w, SimAt (next s w) (nextT s) w)
    (hrest : ∀ s w, SimAt (rest s w) (restT s) w) :
    SimAt (match updateBoard (bd s1) m1 w with
      | none => none
      | some (cont, w1) =>
        if !cont then some (false, s1, w1)
        else
          match next s1 w1 with
          | none => none
          | some (found, s2, w2) =>
            if found then some (true, s2, w2)
            else
              match updateBoard (bd (undo s2)) m2 w2 with
              | none => none
              | some (cont2, w3) =>
                if !cont2 then some (false, undo s2, w3)
                else rest (undo s2) w3)
      (if (nextT s1).1 = true then (true, (nextT s1).2.1, ⟨bd s1, m1⟩ :: (nextT s1).2.2)
       else ((restT (undo (nextT s1).2.1)).1, (restT (undo (nextT s1).2.1)).2.1,
          ⟨bd s1, m1⟩ :: ((nextT s1).2.2 ++
            ⟨bd (undo (nextT s1).2.1), m2⟩ :: (restT (undo (nextT s1).2.1)).2.2))) w := by
  have hstopk : ∀ (r : Bool) (s2 : σ) (w2 : World), stopFlag w2 = true →
      ∃ r2 s3, (fun (found : Bool) (s2 : σ) (w2 : World) =>
        if found then some (true, s2, w2)
        else
          match updateBoard (bd (undo s2)) m2 w2 with
          | none => none
          | some (cont2, w3) =>
            if !cont2 then some (false, undo s2, w3)
            else rest (undo s2) w3) r s2 w2 = some (r2, s3, w2) := by
    intro r s2 w2 hst
    by_cases hr : r = true
    · exact ⟨true, s2, by simp [hr]⟩
    · refine ⟨false, undo s2, ?_⟩
      simp only [hr, if_false]
      rw [updateBoard_eq]
      simp [hst]
  by_cases hf : (nextT s1).1 = true
  · simp only [hf, if_true]
    refine simAt_step (bd s1) m1 s1 _ true (nextT s1).2.1 (nextT s1).2.2 w ?_
    intro w1
    have hb := simAt_bind (next s1 w1) _ (nextT s1) (true, (nextT s1).2.1, []) w1
      (hnext s1 w1) ?_ hstopk
    · simpa using hb
    · intro w2
      simp only [hf, if_true]
      exact simAt_ret _ _ _
  · simp only [hf, if_false]
    refine simAt_step (bd s1) m1 s1 _ (restT (undo (nextT s1).2.1)).1
      (restT (undo (nextT s1).2.1)).2.1 _ w ?_
    intro w1
    have hb := simAt_bind (next s1 w1) _ (nextT s1)
      ((restT (undo (nextT s1).2.1)).1, (restT (undo (nextT s1).2.1)).2.1,
          ⟨bd (undo (nextT s1).2.1), m2⟩ :: (restT (undo (nextT s1).2.1)).2.2) w1
      (hnext s1 w1) ?_ hstopk
    · exact hb
    · intro w2
      simp only [hf, if_false]
      exact simAt_step _ _ _ _ _ _ _ _ (fun w3 => hrest _ w3)

theorem dfsLoop_sim (dfsNext : DfsState → World → Option (Bool × DfsState × World))
    (dfsNextT : DfsState → Bool × DfsState × List Step) (row : Nat)
    (hnext : ∀ s w, SimAt (dfsNext s w) (dfsNextT s) w) :
    ∀ cols s w, SimAt (dfsLoop dfsNext row cols s w) (dfsLoopT dfsNextT row cols s) w := by
  intro cols
  induction cols with
  | nil => intro s w; exact simAt_ret _ _ _
  | cons col cols ih =>
    intro s w
    rw [dfsLoop, dfsLoopT]
    by_cases hstop : stopFlag w = true
    · simp only [hstop, if_true]
      exact simAt_stopped _ _ _ _ hstop
    · simp only [hstop, Bool.false_eq_true, if_false]
      by_cases hsafe : isSafe s.queenPositions row col = true
      · simp only [hsafe, if_true]
        have h := simAt_trial dfsNext dfsNextT (dfsLoop dfsNext row cols)
          (dfsLoopT dfsNextT row cols)
          (fun s2 => ⟨s2.queenPositions.set row (-1), setCell s2.boardState row col false⟩)
          (fun s => s.boardState) (.trying row col) (.backtracking row col)
          ⟨s.queenPositions.set row (col : Int), setCell s.boardState row col true⟩ w hnext ih
        dsimp only at h
        convert h using 6
        funext motive x h1 h2
        rcases x with _ | ⟨a, b, c⟩ <;> rfl
      · simp only [hsafe, Bool.false_eq_true, if_false]
        exact ih s w

theorem dfs_sim (n : Nat) : ∀ fuel row s w, n < fuel + row → row ≤ n →
    SimAt (dfs n fuel row s w) (dfsT n fuel row s) w := by
  intro fuel
  induction fuel with
  | zero => intro row s w h1 h2; omega
  | succ fuel ih =>
    intro row s w h1 h2
    rw [dfs, dfsT]
    by_cases hstop : stopFlag w = true
    · simp only [hstop, if_true]
      exact simAt_stopped _ _ _ _ hstop
    · simp only [hstop, Bool.false_eq_true, if_false]
      by_cases hrow : row = n
      · simp only [hrow, if_true]
        exact simAt_last _ _ _ _
      · simp only [hrow, if_false]
        exact dfsLoop_sim _ _ _ (fun s w => ih (row + 1) s w (by omega) (by omega)) _ _ _

theorem solveLoop_sim (n : Nat)
    (solveNext : List (List Nat) → CspState → World → Option (Bool × CspState × World))
    (solveNextT : List (List Nat) → CspState → Bool × CspState × List Step) (col : Nat)
    (hnext : ∀ d s w, SimAt (solveNext d s w) (solveNextT d s) w) :
    ∀ rows d s w, SimAt (solveLoop n solveNext col rows d s w)
      (solveLoopT n solveNextT col rows d s) w := by
  intro rows
  induction rows with
  | nil => intro d s w; exact simAt_ret _ _ _
  | cons row rows ih =>
    intro d s w
    rw [solveLoop, solveLoopT]
    by_cases hstop : stopFlag w = true
    · simp only [hstop, if_true]
      exact simAt_stopped _ _ _ _ hstop
    · simp only [hstop, Bool.false_eq_true, if_false]
      by_cases hg : (!getCell s.boardState row col) = true
      · simp only [hg, if_true]
        have h := simAt_trial (solveNext (propagateConstraints n row col d))
          (solveNextT (propagateConstraints n row col d))
          (solveLoop n solveNext col rows (d.map fun x => x))
          (solveLoopT n solveNextT col rows (d.map fun x => x))
          (fun s2 => { s2 with boardState := setCell s2.boardState row col false })
          (fun s => s.boardState) (.placing row col) (.backtracking row col)
          { s with guards := s.guards ++ [(row, col, s.boardState)],
                   boardState := setCell s.boardState row col true } w
          (hnext _) (ih _)
        dsimp only at h
        convert h using 6
        funext motive x h1 h2
        rcases x with _ | ⟨a, b, c⟩ <;> rfl
      · simp only [hg, Bool.false_eq_true, if_false]
        exact ih _ _ w

theorem solve_sim (n : Nat) : ∀ fuel col d s w, n < fuel + col → col ≤ n →
    SimAt (solve n fuel col d s w) (solveT n fuel col d s) w := by
  intro fuel
  induction fuel with
  | zero => intro col d s w h1 h2; omega
  | succ fuel ih =>
    intro col d s w h1 h2
    rw [solve, solveT]
    by_cases hstop : stopFlag w = true
    · simp only [hstop, if_true]
      exact simAt_stopped _ _ _ _ hstop
    · simp only [hstop, Bool.false_eq_true, if_false]
      by_cases hcol : col = n
      · simp only [hcol, if_true]
        exact simAt_last _ _ _ _
      · simp only [hcol, if_false]
        exact solveLoop_sim _ _ _ _ (fun d s w => ih (col + 1) d s w (by omega) (by omega)) _ _ _ _

/-! ## Whole runs -/

theorem runWith_eq (n : Nat) (alg : Algorithm) (sched : List (List (List Event))) :
    runWith n alg sched =
      (replay (pureTrace n alg) (handleSolveStart (initWorld n alg sched))).map
        (finish (pureResult n alg)) := by
  cases alg with
  | dfs =>
    have h := dfs_sim n (n + 1) 0 (dfsInit n) (handleSolveStart (initWorld n .dfs sched))
      (by omega) (by omega)
    unfold SimAt at h
    simp only [runWith, handleSolve, pureTrace, pureResult]
    have hn : (handleSolveStart (initWorld n .dfs sched)).n = n := rfl
    have ha : (handleSolveStart (initWorld n .dfs sched)).algorithm = .dfs := rfl
    simp only [ha, solveDFSAnimated, dfsRun, hn]
    cases hr : replay (dfsT n (n + 1) 0 (dfsInit n)).2.2
        (handleSolveStart (initWorld n .dfs sched)) with
    | none =>
      rw [hr] at h
      simp [h]
    | some w1 =>
      rw [hr] at h
      obtain ⟨r, s, h, hrs⟩ := h
      rw [h]
      by_cases hst : stopFlag w1 = true
      · simp [finish, hst]
      · have hf : stopFlag w1 = false := by simpa using hst
        obtain ⟨rfl, rfl⟩ := hrs hf
        cases hres : (dfsT n (n + 1) 0 (dfsInit n)).1 <;> simp [finish, hf]
  | csp =>
    have h := solve_sim n (n + 1) 0 (fullDomain n) (cspInit n)
      (handleSolveStart (initWorld n .csp sched)) (by omega) (by omega)
    unfold SimAt at h
    simp only [runWith, handleSolve, pureTrace, pureResult]
    have hn : (handleSolveStart (initWorld n .csp sched)).n = n := rfl
    have ha : (handleSolveStart (initWorld n .csp sched)).algorithm = .csp := rfl
    simp only [ha, solveCSPAnimated, cspRun, hn]
    cases hr : replay (solveT n (n + 1) 0 (fullDomain n) (cspInit n)).2.2
        (handleSolveStart (initWorld n .csp sched)) with
    | none =>
      rw [hr] at h
      simp [h]
    | some w1 =>
      rw [hr] at h
      obtain ⟨r, s, h, hrs⟩ := h
      rw [h]
      by_cases hst : stopFlag w1 = true
      · simp [finish, hst]
      · have hf : stopFlag w1 = false := by simpa using hst
        obtain ⟨rfl, rfl⟩ := hrs hf
        cases hres : (solveT n (n + 1) 0 (fullDomain n) (cspInit n)).1 <;> simp [finish, hf]

/-! ## Schedules -/

theorem stopFlag_congr (w w2 : World) (h1 : w2.handles = w.handles)
    (h2 : w2.solverRef = w.solverRef) : stopFlag w2 = stopFlag w := by
  simp [stopFlag, h1, h2]

theorem publishAll_nil (w : World) : publishAll [] w = w := rfl

theorem publishAll_cons (st : Step) (rest : List Step) (w : World) :
    publishAll (st :: rest) w = publishAll rest (publish st w) := rfl

theorem publishAll_sched (steps : List Step) (w : World) (sc : List (List (List Event))) :
    publishAll steps { w with sched := sc } = { publishAll steps w with sched := sc } := by
  induction steps generalizing w with
  | nil => rfl
  | cons st rest ih =>
    simp only [publishAll_cons]
    rw [← ih]
    rfl

theorem publishAll_published (steps : List Step) (w : World) :
    (publishAll steps w).published = w.published ++ steps := by
  induction steps generalizing w with
  | nil => simp [publishAll_nil]
  | cons st rest ih => simp [publishAll_cons, ih, publish]

theorem publishAll_stepCount (steps : List Step) (w : World) :
    (publishAll steps w).stepCount = w.stepCount + steps.length := by
  induction steps generalizing w with
  | nil => simp [publishAll_nil]
  | cons st rest ih => simp [publishAll_cons, ih, publish]; omega

theorem publishAll_fixed (steps : List Step) (w : World) :
    (publishAll steps w).handles = w.handles ∧ (publishAll steps w).solverRef = w.solverRef ∧
    (publishAll steps w).solving = w.solving ∧ (publishAll steps w).pausedRef = w.pausedRef ∧
    (publishAll steps w).isPaused = w.isPaused ∧ (publishAll steps w).sched = w.sched ∧
    (publishAll steps w).n = w.n ∧ (publishAll steps w).algorithm = w.algorithm := by
  induction steps generalizing w with
  | nil => simp [publishAll_nil]
  | cons st rest ih =>
    simp only [publishAll_cons]
    have := ih (publish st w)
    simpa [publish] using this

theorem publishAll_message (steps : List Step) (w : World) :
    (publishAll steps w).message = ((steps.getLast?).map Step.msg).getD w.message := by
  induction steps generalizing w with
  | nil => simp [publishAll_nil]
  | cons st rest ih =>
    simp only [publishAll_cons, ih]
    cases rest with
    | nil => simp [publish]
    | cons a r =>
      rw [List.getLast?_cons_cons, List.getLast?_eq_getLast (a :: r) (by simp)]
      simp

theorem publishAll_board (steps : List Step) (w : World) :
    (publishAll steps w).board = ((steps.getLast?).map Step.board).getD w.board := by
  induction steps generalizing w with
  | nil => simp [publishAll_nil]
  | cons st rest ih =>
    simp only [publishAll_cons, ih]
    cases rest with
    | nil => simp [publish]
    | cons a r =>
      rw [List.getLast?_cons_cons, List.getLast?_eq_getLast (a :: r) (by simp)]
      simp

theorem stopFlag_publishAll (steps : List Step) (w : World) :
    stopFlag (publishAll steps w) = stopFlag w :=
  stopFlag_congr _ _ (publishAll_fixed steps w).1 (publishAll_fixed steps w).2.1

theorem pressAll_pause (b : List Event) (w : World) (hb : (b.all fun e => e == Event.pause) = true)
    (hs : w.solving = true) :
    pressAll b w = { w with
      pausedRef := w.pausedRef ^^ decide (b.length % 2 = 1)
      isPaused := w.isPaused ^^ decide (b.length % 2 = 1) } := by
  induction b generalizing w with
  | nil => simp [pressAll]
  | cons e es ih =>
    simp only [List.all_cons, Bool.and_eq_true, beq_iff_eq] at hb
    obtain ⟨rfl, hes⟩ := hb
    have h1 : pressAll (Event.pause :: es) w = pressAll es (handlePause w) := by
      simp [pressAll, press, hs]
    rw [h1, ih (handlePause w) hes (by simpa [handlePause] using hs)]
    have hpar : ∀ p : Bool, ((!p) ^^ decide (es.length % 2 = 1)) =
        (p ^^ decide ((es.length + 1) % 2 = 1)) := by
      intro p
      rcases Nat.mod_two_eq_zero_or_one es.length with h | h <;>
        cases p <;> simp [h, Nat.add_mod]
    simp only [handlePause, List.length_cons, hpar]

theorem checkPause_calm (bs : List (List Event)) :
    ∀ (w : World) (p : Bool), pausesOnly bs = true → w.solving = true → stopFlag w = false →
      w.pausedRef = p → w.isPaused = p → resumes p bs = true →
      checkPause bs w = some { w with pausedRef := false, isPaused := false } := by
  induction bs with
  | nil =>
    intro w p _ _ hst hp hi hr
    simp only [resumes, Bool.not_eq_true'] at hr
    subst hr
    have : w = { w with pausedRef := false, isPaused := false } := by
      cases w; simp_all
    rw [← this]
    simp [checkPause, hp, hst]
  | cons b bs ih =>
    intro w p hpo hs hst hp hi hr
    cases p with
    | false =>
      have : w = { w with pausedRef := false, isPaused := false } := by
        cases w; simp_all
      rw [← this]
      simp [checkPause, hp, hst]
    | true =>
      simp only [pausesOnly, List.all_cons, Bool.and_eq_true] at hpo
      simp only [resumes, Bool.not_true, Bool.false_or] at hr
      have h1 : checkPause (b :: bs) w = checkPause bs (pressAll b w) := by
        simp [checkPause, hp, hst]
      have hw2 := pressAll_pause b w hpo.1 hs
      have h2 := ih (pressAll b w) (true ^^ decide (b.length % 2 = 1)) hpo.2
        (by rw [hw2]; exact hs)
        (by rw [← hst]; exact stopFlag_congr _ _ (by rw [hw2]) (by rw [hw2]))
        (by rw [hw2]; simp [hp]) (by rw [hw2]; simp [hi]) hr
      rw [h1, h2, hw2]

theorem sleep_calm (w : World) (hs : w.solving = true) (hst : stopFlag w = false)
    (hp : w.pausedRef = false) (hi : w.isPaused = false) (hc : calm (w.sched.take 1) = true) :
    sleep w = some { w with sched := w.sched.tail } := by
  unfold sleep
  cases hsch : w.sched with
  | nil =>
    have hst2 : stopFlag { w with sched := ([] : List (List (List Event))).tail } = false := by
      rw [← hst]; exact stopFlag_congr _ _ rfl rfl
    simp [checkPause, hp, hst2]
  | cons entry rest =>
    rw [hsch] at hc
    simp only [calm, List.take_succ_cons, List.take_zero, List.all_cons, Bool.and_eq_true] at hc
    obtain ⟨⟨hpo, hwe⟩, _⟩ := hc
    cases entry with
    | nil =>
      have hst2 : stopFlag { w with sched := rest } = false := by
        rw [← hst]; exact stopFlag_congr _ _ rfl rfl
      simp [checkPause, hp, hst2]
    | cons b bs =>
      simp only [List.head?_cons, Option.getD_some, List.tail_cons]
      simp only [pausesOnly, List.all_cons, Bool.and_eq_true] at hpo
      simp only [waitEnds] at hwe
      have hs1 : ({ w with sched := rest } : World).solving = true := hs
      have hw2 := pressAll_pause b { w with sched := rest } hpo.1 hs1
      have h2 := checkPause_calm bs (pressAll b { w with sched := rest })
        (false ^^ decide (b.length % 2 = 1)) hpo.2
        (by rw [hw2]; exact hs)
        (by rw [← hst]; exact stopFlag_congr _ _ (by rw [hw2]) (by rw [hw2]))
        (by rw [hw2]; simp [hp]) (by rw [hw2]; simp [hi]) (by simpa using hwe)
      rw [h2, hw2]
      simp [hp, hi]

theorem calm_cons (e : List (List Event)) (sc : List (List (List Event))) :
    calm (e :: sc) = true ↔ calm [e] = true ∧ calm sc = true := by
  simp [calm]

theorem calm_take_one (sc : List (List (List Event))) (k : Nat)
    (h : calm (sc.take (k + 1)) = true) : calm (sc.take 1) = true := by
  cases sc with
  | nil => rfl
  | cons e r =>
    simp only [List.take_succ_cons, List.take_zero] at h ⊢
    exact ((calm_cons e _).1 h).1

theorem calm_take_tail (sc : List (List (List Event))) (k : Nat)
    (h : calm (sc.take (k + 1)) = true) : calm (sc.tail.take k) = true := by
  cases sc with
  | nil => simp [calm]
  | cons e r =>
    simp only [List.take_succ_cons, List.tail_cons] at h ⊢
    exact ((calm_cons e _).1 h).2

theorem replay_calm (steps : List Step) :
    ∀ w : World, w.solving = true → stopFlag w = false → w.pausedRef = false →
      w.isPaused = false → calm (w.sched.take steps.length) = true →
      replay steps w = some { publishAll steps w with sched := w.sched.drop steps.length } := by
  induction steps with
  | nil => intro w _ _ _ _ _; simp [replay, publishAll_nil]
  | cons st rest ih =>
    intro w hs hst hp hi hc
    simp only [replay, hst, Bool.false_eq_true, if_false]
    simp only [List.length_cons] at hc
    rw [sleep_calm (publish st w) (by simpa [publish] using hs)
      (by rw [← hst]; exact stopFlag_congr _ _ rfl rfl) (by simpa [publish] using hp)
      (by simpa [publish] using hi) (by simpa [publish] using calm_take_one _ _ hc)]
    simp only
    rw [ih _ (by simpa [publish] using hs) (by rw [← hst]; exact stopFlag_congr _ _ rfl rfl)
      (by simpa [publish] using hp) (by simpa [publish] using hi)
      (by simpa [publish] using calm_take_tail _ _ hc)]
    rw [publishAll_sched, publishAll_cons]
    simp [publish, List.drop_succ_cons, List.tail_drop]

theorem stopFlag_handleStop (w : World) (h : Nat) (h1 : w.solverRef = some h)
    (h2 : h < w.handles.length) : stopFlag (handleStop w) = true := by
  simp [stopFlag, handleStop, h1, List.getD_eq_getElem?_getD, List.getElem?_set, h2]

theorem sleep_stop (w : World) (bs : List (List Event)) (post : List (List (List Event)))
    (h : Nat) (hs : w.solving = true) (h1 : w.solverRef = some h) (h2 : h < w.handles.length)
    (hsch : w.sched = ([Event.stop] :: bs) :: post) :
    sleep w = some (handleStop { w with sched := post }) := by
  unfold sleep
  rw [hsch]
  simp only [List.head?_cons, Option.getD_some, List.tail_cons]
  have hp : pressAll [Event.stop] { w with sched := post } = handleStop { w with sched := post } := by
    simp [pressAll, press, hs]
  rw [hp]
  have hst := stopFlag_handleStop { w with sched := post } h h1 h2
  cases bs with
  | nil => simp [checkPause, hst]
  | cons b bs => simp [checkPause, hst]

/-- A Stop press during the wait of step `pre.length + 1`: exactly that many steps are
published and the component is left as `handleStop` leaves it. -/
theorem replay_stop (bs : List (List Event)) (post : List (List (List Event))) (h : Nat) :
    ∀ (pre : List (List (List Event))) (steps : List Step) (w : World),
      w.solving = true → stopFlag w = false → w.pausedRef = false → w.isPaused = false →
      w.solverRef = some h → h < w.handles.length → calm pre = true →
      w.sched = pre ++ ([Event.stop] :: bs) :: post → pre.length < steps.length →
      replay steps w =
        some (handleStop { publishAll (steps.take (pre.length + 1)) w with sched := post }) := by
  intro pre
  induction pre with
  | nil =>
    intro steps w hs hst hp hi h1 h2 _ hsch hlen
    cases steps with
    | nil => simp at hlen
    | cons st rest =>
      simp only [replay, hst, Bool.false_eq_true, if_false]
      rw [sleep_stop (publish st w) bs post h (by simpa [publish] using hs)
        (by simpa [publish] using h1) (by simpa [publish] using h2)
        (by simpa [publish] using hsch)]
      simp only
      rw [replay_stopped _ _ (stopFlag_handleStop _ h (by simpa [publish] using h1)
        (by simpa [publish] using h2))]
      simp [publishAll_cons, publishAll_nil]
  | cons e pre ih =>
    intro steps w hs hst hp hi h1 h2 hc hsch hlen
    cases steps with
    | nil => simp at hlen
    | cons st rest =>
      simp only [replay, hst, Bool.false_eq_true, if_false]
      have hce := (calm_cons e pre).1 hc
      rw [sleep_calm (publish st w) (by simpa [publish] using hs)
        (by rw [← hst]; exact stopFlag_congr _ _ rfl rfl) (by simpa [publish] using hp)
        (by simpa [publish] using hi) (by simpa [publish, hsch] using hce.1)]
      simp only
      rw [ih rest _ (by simpa [publish] using hs)
        (by rw [← hst]; exact stopFlag_congr _ _ rfl rfl)
        (by simpa [publish] using hp) (by simpa [publish] using hi)
        (by simpa [publish] using h1) (by simpa [publish] using h2) hce.2
        (by simp [publish, hsch]) (by simpa using hlen)]
      rw [publishAll_sched]
      simp [publishAll_cons, List.take_succ_cons]

/-! ## Concrete runs -/

set_option maxRecDepth 200000 in
/-- C5: the uninterrupted DFS run for n = 4 publishes 13 steps; the first reads
"Trying queen at Row 1, Column 1", the eighth "Backtracking from Row 1, Column 1", the last
is the "Solution found" step and its board holds queens at exactly the 1-based cells
(1,2), (2,4), (3,1), (4,3). -/
theorem dfs_four_scenario :
    ((trace 4 .dfs).head?.map fun st => st.msg.render) = some "Trying queen at Row 1, Column 1" ∧
    ((trace 4 .dfs)[7]?.map fun st => st.msg.render) = some "Backtracking from Row 1, Column 1" ∧
    ((trace 4 .dfs).getLast?.map fun st => st.msg) = some Msg.solution ∧
    ((trace 4 .dfs).getLast?.map fun st => (queenCells st.board).map fun p => (p.1 + 1, p.2 + 1))
      = some [(1, 2), (2, 4), (3, 1), (4, 3)] ∧
    (trace 4 .dfs).length = 13 := by
  decide

set_option maxRecDepth 200000 in
/-- C6, as stated, fails: for n = 4 the cell (row 1, column 3) holds a queen on the final
board of the CSP run and none on the final board of the DFS run. -/
theorem csp_four_differs_from_dfs :
    ((trace 4 .csp).getLast?.map fun st => decide ((0, 2) ∈ queenCells st.board)) = some true ∧
    ((trace 4 .dfs).getLast?.map fun st => decide ((0, 2) ∈ queenCells st.board)) = some false := by
  decide

set_option maxRecDepth 200000 in
/-- C6, amended: for n = 4 the CSP run ends with the "Solution found" step, and its final
board is the transpose of the final board of the DFS run, with queens at exactly the
1-based cells (1,3), (2,1), (3,4), (4,2). -/
theorem csp_four_scenario :
    ((trace 4 .csp).getLast?.map fun st => st.msg) = some Msg.solution ∧
    ((trace 4 .csp).getLast?.map fun st => st.board) =
      ((trace 4 .dfs).getLast?.map fun st => transposeBoard st.board) ∧
    ((trace 4 .csp).getLast?.map fun st => (queenCells st.board).map fun p => (p.1 + 1, p.2 + 1))
      = some [(1, 3), (2, 1), (3, 4), (4, 2)] := by
  decide

set_option maxRecDepth 200000 in
/-- C4: for n = 2 and n = 3 and both algorithms the uninterrupted search returns failure
and leaves the live board all-clear, the message ends as "No solution found.", no
"Solution found" step is published and the last published board is all-clear. -/
theorem no_solution_two_three :
    NoSolutionRun 2 .dfs ∧ NoSolutionRun 2 .csp ∧ NoSolutionRun 3 .dfs ∧ NoSolutionRun 3 .csp := by
  unfold NoSolutionRun
  refine ⟨?_, ?_, ?_, ?_⟩ <;> decide

/-! ## The run controller -/

set_option maxRecDepth 200000 in
/-- C7, as stated, fails: in a state with `solving` true, `handleSolve` replaces the run
handle, clears the step counter and the message, and launches a second search, which
publishes 13 steps. -/
theorem handleSolve_not_noop :
    midRun.solving = true ∧ midRun.solverRef = some 0 ∧ midRun.stepCount = 5 ∧
    (handleSolveStart midRun).solverRef = some 1 ∧
    (handleSolveStart midRun).stepCount = 0 ∧
    (handleSolveStart midRun).message = Msg.starting ∧
    handleSolveStart midRun ≠ midRun ∧
    ((handleSolve midRun).map fun w => w.published.length) = some 13 ∧
    handleSolve midRun ≠ some midRun := by
  decide

/-- C7, amended: `handleSolve` has no guard of its own: in every state it stores a fresh
handle with `stop` false, sets `solving`, clears the pause flags and the step counter and
sets "Starting...", then runs the selected search.  While `solving` is true the Solve
button is not rendered, so a Solve press leaves the controller state unchanged. -/
theorem solve_press_gated (w : World) (h : w.solving = true) :
    press Event.solve w = w ∧
    (handleSolveStart w).solverRef = some w.handles.length ∧
    (handleSolveStart w).handles = w.handles ++ [false] ∧
    stopFlag (handleSolveStart w) = false ∧
    (handleSolveStart w).solving = true ∧
    (handleSolveStart w).stepCount = 0 ∧
    (handleSolveStart w).message = Msg.starting ∧
    (handleSolveStart w).pausedRef = false ∧
    (handleSolveStart w).isPaused = false ∧
    handleSolve w =
      (if w.algorithm = .csp then solveCSPAnimated (handleSolveStart w)
        else solveDFSAnimated (handleSolveStart w)).map fun w2 => { w2 with solving := false } := by
  refine ⟨by simp [press, h], rfl, rfl, ?_, rfl, rfl, rfl, rfl, rfl, ?_⟩
  · simp [stopFlag, handleSolveStart, List.getD_eq_getElem?_getD]
  · have ha : (handleSolveStart w).algorithm = w.algorithm := rfl
    simp only [handleSolve, ha]
    cases (if w.algorithm = .csp then solveCSPAnimated (handleSolveStart w)
      else solveDFSAnimated (handleSolveStart w)) <;> rfl

/-- A concrete instance: the Solve press at a state in the middle of a run. -/
theorem solve_press_gated_witness :
    midRun.solving = true ∧ press Event.solve midRun = midRun :=
  ⟨by decide, (solve_press_gated midRun (by decide)).1⟩

set_option maxRecDepth 200000 in
/-- C8 fails on the code: n = 4, DFS, Stop pressed during the wait of the first step and
Solve pressed before that wait ends.  The stopped run reads the flag of the new handle,
finds it false and goes on to publish all 13 steps of the search; with the Stop press
alone it publishes one. -/
theorem stopped_run_resumes_after_restart :
    ((runWith 4 .dfs [[[Event.stop]]]).map fun w => w.published.length) = some 1 ∧
    ((runWith 4 .dfs [[[Event.stop, Event.solve]]]).map fun w => w.published.length) = some 13 ∧
    ((runWith 4 .dfs [[[Event.stop, Event.solve]]]).map fun w => w.published)
      = some (trace 4 .dfs) ∧
    ((runWith 4 .dfs [[[Event.stop, Event.solve]]]).map fun w => w.handles) = some [true, false] := by
  decide

/-! ## Messages of a trace -/

theorem dfsLoopT_msgs (dfsNextT : DfsState → Bool × DfsState × List Step) (row : Nat)
    (hnext : ∀ s, ∀ st ∈ (dfsNextT s).2.2, st.msg ≠ Msg.noSolution) :
    ∀ cols s, ∀ st ∈ (dfsLoopT dfsNextT row cols s).2.2, st.msg ≠ Msg.noSolution := by
  intro cols
  induction cols with
  | nil => intro s st h; simp [dfsLoopT] at h
  | cons col cols ih =>
    intro s st h
    simp only [dfsLoopT] at h
    split at h
    · split at h
      · simp only [List.mem_cons] at h
        rcases h with rfl | h
        · simp
        · exact hnext _ _ h
      · simp only [List.mem_cons, List.mem_append] at h
        rcases h with rfl | h | rfl | h
        · simp
        · exact hnext _ _ h
        · simp
        · exact ih _ _ h
    · exact ih _ _ h

theorem dfsT_msgs (n : Nat) : ∀ fuel row s, ∀ st ∈ (dfsT n fuel row s).2.2,
    st.msg ≠ Msg.noSolution := by
  intro fuel
  induction fuel with
  | zero => intro row s st h; simp [dfsT] at h
  | succ fuel ih =>
    intro row s st h
    rw [dfsT] at h
    split at h
    · simp only [List.mem_singleton] at h
      subst h
      simp
    · exact dfsLoopT_msgs _ _ (fun s => ih (row + 1) s) _ _ _ h

theorem solveLoopT_msgs (n : Nat)
    (solveNextT : List (List Nat) → CspState → Bool × CspState × List Step) (col : Nat)
    (hnext : ∀ d s, ∀ st ∈ (solveNextT d s).2.2, st.msg ≠ Msg.noSolution) :
    ∀ rows d s, ∀ st ∈ (solveLoopT n solveNextT col rows d s).2.2, st.msg ≠ Msg.noSolution := by
  intro rows
  induction rows with
  | nil => intro d s st h; simp [solveLoopT] at h
  | cons row rows ih =>
    intro d s st h
    simp only [solveLoopT] at h
    split at h
    · split at h
      · simp only [List.mem_cons] at h
        rcases h with rfl | h
        · simp
        · exact hnext _ _ _ h
      · simp only [List.mem_cons, List.mem_append] at h
        rcases h with rfl | h | rfl | h
        · simp
        · exact hnext _ _ _ h
        · simp
        · exact ih _ _ _ h
    · exact ih _ _ _ h

theorem solveT_msgs (n : Nat) : ∀ fuel col d s, ∀ st ∈ (solveT n fuel col d s).2.2,
    st.msg ≠ Msg.noSolution := by
  intro fuel
  induction fuel with
  | zero => intro col d s st h; simp [solveT] at h
  | succ fuel ih =>
    intro col d s st h
    rw [solveT] at h
    simp only at h
    split at h
    · simp only [List.mem_singleton] at h
      subst h
      simp
    · exact solveLoopT_msgs _ _ _ (fun d s => ih (col + 1) d s) _ _ _ _ h

theorem pureTrace_msgs (n : Nat) (alg : Algorithm) :
    ∀ st ∈ pureTrace n alg, st.msg ≠ Msg.noSolution := by
  cases alg with
  | dfs => exact dfsT_msgs n _ _ _
  | csp => exact solveT_msgs n _ _ _ _

/-! ## Runs under a schedule -/

theorem finish_fields (r : Bool) (w : World) :
    (finish r w).published = w.published ∧ (finish r w).board = w.board ∧
    (finish r w).stepCount = w.stepCount ∧ (finish r w).handles = w.handles ∧
    (finish r w).solverRef = w.solverRef ∧ (finish r w).solving = false ∧
    (finish r w).message = (if !r && !stopFlag w then Msg.noSolution else w.message) := by
  unfold finish
  split <;> simp_all

theorem stopFlag_finish (r : Bool) (w : World) : stopFlag (finish r w) = stopFlag w :=
  stopFlag_congr _ _ (finish_fields r w).2.2.2.1 (finish_fields r w).2.2.2.2.1

theorem stopFlag_sched (w : World) (sc : List (List (List Event))) :
    stopFlag { w with sched := sc } = stopFlag w := stopFlag_congr _ _ rfl rfl

/-- The run on a schedule of resumed pauses: it returns, and what it leaves in the
component does not depend on the pauses. -/
theorem runWith_calm (n : Nat) (alg : Algorithm) (sched : List (List (List Event)))
    (hc : calm (sched.take (pureTrace n alg).length) = true) :
    ∃ w, runWith n alg sched = some w ∧ w.published = pureTrace n alg ∧
      w.board = (((pureTrace n alg).getLast?).map Step.board).getD (emptyBoard n) ∧
      w.message = (if !pureResult n alg then Msg.noSolution
        else (((pureTrace n alg).getLast?).map Step.msg).getD Msg.starting) ∧
      w.stepCount = (pureTrace n alg).length ∧ stopFlag w = false ∧ w.solving = false := by
  rw [runWith_eq]
  have hst0 : stopFlag (handleSolveStart (initWorld n alg sched)) = false := by
    simp [stopFlag, handleSolveStart, initWorld]
  rw [replay_calm (pureTrace n alg) (handleSolveStart (initWorld n alg sched)) rfl hst0 rfl rfl hc]
  generalize (handleSolveStart (initWorld n alg sched)).sched.drop (pureTrace n alg).length = sc
  have hst : stopFlag { publishAll (pureTrace n alg) (handleSolveStart (initWorld n alg sched))
      with sched := sc } = false := by
    rw [stopFlag_sched, stopFlag_publishAll, hst0]
  refine ⟨_, rfl, ?_, ?_, ?_, ?_, ?_, ?_⟩
  · rw [(finish_fields _ _).1]
    simp [publishAll_published, handleSolveStart, initWorld]
  · rw [(finish_fields _ _).2.1]
    simp [publishAll_board, handleSolveStart, initWorld]
  · rw [(finish_fields _ _).2.2.2.2.2.2, hst]
    simp [publishAll_message, handleSolveStart, initWorld]
  · rw [(finish_fields _ _).2.2.1]
    simp [publishAll_stepCount, handleSolveStart, initWorld]
  · rw [stopFlag_finish, hst]
  · exact (finish_fields _ _).2.2.2.2.2.1

theorem trace_eq (n : Nat) (alg : Algorithm) : trace n alg = pureTrace n alg := by
  obtain ⟨w, hw, hp, _⟩ := runWith_calm n alg [] (by simp [calm])
  simp [trace, hw, hp]

theorem calm_replicate (k : Nat) : calm (List.replicate k []) = true := by
  simp [calm, pausesOnly, waitEnds]

theorem calm_take (sc : List (List (List Event))) (k : Nat) (h : calm sc = true) :
    calm (sc.take k) = true := by
  simp only [calm, List.all_eq_true] at h ⊢
  intro e he
  exact h e (List.mem_of_mem_take he)

/-- C3: pausing does not alter the search trace.  Under any two schedules of Pause/Resume
presses in which every pause is resumed, the run returns and publishes the same steps,
those of the run nobody pauses, and ends with the same board, message and step count;
`handlePause` changes the two pause flags and nothing else. -/
theorem pause_keeps_trace (n : Nat) (alg : Algorithm) (s1 s2 : List (List (List Event)))
    (h1 : calm s1 = true) (h2 : calm s2 = true) :
    (∃ w1 w2, runWith n alg s1 = some w1 ∧ runWith n alg s2 = some w2 ∧
      w1.published = w2.published ∧ w1.published = trace n alg ∧
      w1.board = w2.board ∧ w1.message = w2.message ∧ w1.stepCount = w2.stepCount) ∧
    (∀ w : World, (handlePause w).board = w.board ∧ (handlePause w).published = w.published ∧
      (handlePause w).message = w.message ∧ (handlePause w).stepCount = w.stepCount ∧
      (handlePause w).handles = w.handles ∧ (handlePause w).solverRef = w.solverRef ∧
      (handlePause w).solving = w.solving ∧ (handlePause w).sched = w.sched ∧
      (handlePause w).pausedRef = !w.pausedRef) := by
  refine ⟨?_, fun w => ⟨rfl, rfl, rfl, rfl, rfl, rfl, rfl, rfl, rfl⟩⟩
  obtain ⟨w1, hw1, hp1, hb1, hm1, hc1, _⟩ := runWith_calm n alg s1 (calm_take _ _ h1)
  obtain ⟨w2, hw2, hp2, hb2, hm2, hc2, _⟩ := runWith_calm n alg s2 (calm_take _ _ h2)
  exact ⟨w1, w2, hw1, hw2, by rw [hp1, hp2], by rw [hp1, trace_eq], by rw [hb1, hb2],
    by rw [hm1, hm2], by rw [hc1, hc2]⟩

set_option maxRecDepth 200000 in
/-- A concrete instance: n = 4, DFS, and two schedules of resumed pauses. -/
theorem pause_keeps_trace_witness :
    calm [[[Event.pause], [], [Event.pause]], [], [[Event.pause, Event.pause]]] = true ∧
    calm [[], [[Event.pause], [Event.pause, Event.pause], [Event.pause]]] = true ∧
    ∃ w1 w2, runWith 4 .dfs [[[Event.pause], [], [Event.pause]], [], [[Event.pause, Event.pause]]]
        = some w1 ∧
      runWith 4 .dfs [[], [[Event.pause], [Event.pause, Event.pause], [Event.pause]]] = some w2 ∧
      w1.published = w2.published ∧ w1.published = trace 4 .dfs ∧
      w1.board = w2.board ∧ w1.message = w2.message ∧ w1.stepCount = w2.stepCount :=
  ⟨by decide, by decide, (pause_keeps_trace 4 .dfs _ _ (by decide) (by decide)).1⟩

/-- C2: cancellation.  When Stop is pressed during the wait of the k-th step (k ≥ 1) the
run returns having published exactly the first k steps of the uninterrupted trace; if
the uninterrupted run has a k-th step at all, the stop flag is then set, the step
counter is k, the message is not "No solution found." and `updateBoard` returns false
without publishing.  A search entered with the flag already set (no step published yet)
returns at once and changes nothing. -/
theorem stop_publishes_no_more (n : Nat) (alg : Algorithm) (k : Nat) (bs : List (List Event))
    (post : List (List (List Event))) (hk : 1 ≤ k) :
    (∃ w, runWith n alg (List.replicate (k - 1) [] ++ ([Event.stop] :: bs) :: post) = some w ∧
      w.published = (trace n alg).take k ∧
      (k ≤ (trace n alg).length →
        stopFlag w = true ∧ w.stepCount = k ∧ w.message ≠ Msg.noSolution ∧ w.solving = false ∧
        ∀ b m, updateBoard b m w = some (false, w))) ∧
    (∀ w0 : World, stopFlag w0 = true →
      solveDFSAnimated w0 = some w0 ∧ solveCSPAnimated w0 = some w0 ∧
      ∀ b m, updateBoard b m w0 = some (false, w0)) := by
  constructor
  · rw [trace_eq]
    by_cases hlen : k ≤ (pureTrace n alg).length
    · rw [runWith_eq]
      have hst0 : ∀ sc, stopFlag (handleSolveStart (initWorld n alg sc)) = false := by
        intro sc; simp [stopFlag, handleSolveStart, initWorld]
      have hrep := replay_stop bs post 0 (List.replicate (k - 1) []) (pureTrace n alg)
        (handleSolveStart (initWorld n alg
          (List.replicate (k - 1) [] ++ ([Event.stop] :: bs) :: post)))
        rfl (hst0 _) rfl rfl rfl (by simp [handleSolveStart, initWorld]) (calm_replicate _) rfl
        (by simp; omega)
      have hk1 : (List.replicate (k - 1) ([] : List (List Event))).length + 1 = k := by
        simp; omega
      rw [hk1] at hrep
      rw [hrep]
      generalize hW : handleSolveStart (initWorld n alg
          (List.replicate (k - 1) [] ++ ([Event.stop] :: bs) :: post)) = W
      have hW1 : W.solverRef = some 0 := by rw [← hW]; rfl
      have hW2 : W.handles = [false] := by rw [← hW]; rfl
      have hW3 : W.published = [] := by rw [← hW]; rfl
      have hW4 : W.stepCount = 0 := by rw [← hW]; rfl
      have hstop : stopFlag (handleStop { publishAll ((pureTrace n alg).take k) W
          with sched := post }) = true := by
        apply stopFlag_handleStop _ 0
        · simp [(publishAll_fixed _ W).2.1, hW1]
        · simp [(publishAll_fixed _ W).1, hW2]
      refine ⟨_, rfl, ?_, fun _ => ⟨?_, ?_, ?_, ?_, ?_⟩⟩
      · rw [(finish_fields _ _).1]
        simp [handleStop, publishAll_published, hW3]
      · rw [stopFlag_finish, hstop]
      · rw [(finish_fields _ _).2.2.1]
        simp [handleStop, publishAll_stepCount, hW4, hlen]
      · rw [(finish_fields _ _).2.2.2.2.2.2, hstop]
        simp only [Bool.not_true, Bool.and_false, Bool.false_eq_true, if_false]
        simp only [handleStop, publishAll_message]
        have hne : (pureTrace n alg).take k ≠ [] := by
          intro h0
          have := congrArg List.length h0
          simp only [List.length_take, List.length_nil] at this
          omega
        rw [List.getLast?_eq_getLast _ hne]
        simp only [Option.map_some', Option.getD_some]
        exact pureTrace_msgs n alg _ (List.mem_of_mem_take (List.getLast_mem hne))
      · exact (finish_fields _ _).2.2.2.2.2.1
      · intro b m
        rw [updateBoard_eq, stopFlag_finish, hstop]
        rfl
    · obtain ⟨w, hw, hp, _⟩ := runWith_calm n alg
        (List.replicate (k - 1) [] ++ ([Event.stop] :: bs) :: post) (by
          have : (List.replicate (k - 1) [] ++ ([Event.stop] :: bs) :: post).take
              (pureTrace n alg).length = List.replicate (pureTrace n alg).length [] := by
            rw [List.take_append_of_le_length (by rw [List.length_replicate]; omega)]
            rw [List.take_replicate]
            congr 1
            omega
          rw [this]
          exact calm_replicate _)
      refine ⟨w, hw, ?_, fun h => absurd h hlen⟩
      rw [hp, List.take_of_length_le (by omega)]
  · intro w0 h0
    refine ⟨?_, ?_, ?_⟩
    · simp [solveDFSAnimated, dfsRun, dfs, h0]
    · simp [solveCSPAnimated, cspRun, solve, h0]
    · intro b m
      rw [updateBoard_eq, h0]
      rfl

set_option maxRecDepth 200000 in
/-- A concrete instance: n = 4, CSP, Stop pressed during the third wait. -/
theorem stop_publishes_no_more_witness :
    1 ≤ 3 ∧ 3 ≤ (trace 4 .csp).length ∧
    ∃ w, runWith 4 .csp (List.replicate (3 - 1) [] ++ ([Event.stop] :: []) :: []) = some w ∧
      w.published = (trace 4 .csp).take 3 ∧
      (3 ≤ (trace 4 .csp).length →
        stopFlag w = true ∧ w.stepCount = 3 ∧ w.message ≠ Msg.noSolution ∧ w.solving = false ∧
        ∀ b m, updateBoard b m w = some (false, w)) :=
  ⟨by decide, by decide, (stop_publishes_no_more 4 .csp 3 [] [] (by decide)).1⟩

/-! ## Boards as tables -/

theorem mapRange_getElem? {α : Type} (n : Nat) (f : Nat → α) (i : Nat) :
    ((List.range n).map f)[i]? = if i < n then some (f i) else none := by
  by_cases h : i < n
  · simp [h, List.getElem?_range]
  · simp [h, List.getElem?_eq_none, Nat.le_of_not_lt h]

theorem mapRange_set {α : Type} (n : Nat) (f : Nat → α) (i : Nat) (v : α) :
    ((List.range n).map f).set i v = (List.range n).map fun k => if k = i then v else f k := by
  apply List.ext_getElem?
  intro k
  rw [List.getElem?_set, mapRange_getElem?, mapRange_getElem?]
  simp only [List.length_map, List.length_range]
  by_cases hk : k < n
  · by_cases hik : i = k
    · subst hik; simp [hk]
    · have : ¬ k = i := fun h => hik h.symm
      simp [hk, hik, this]
  · by_cases hik : i = k
    · subst hik; simp [hk]
    · simp [hk, hik]

theorem mapRange_congr {α : Type} (n : Nat) (f g : Nat → α) (h : ∀ i, i < n → f i = g i) :
    (List.range n).map f = (List.range n).map g := by
  apply List.map_congr_left
  intro i hi
  exact h i (List.mem_range.1 hi)

theorem mkBoard_length (n : Nat) (f : Nat → Nat → Bool) : (mkBoard n f).length = n := by
  simp [mkBoard]

theorem getCell_mkBoard (n : Nat) (f : Nat → Nat → Bool) (r c : Nat) :
    getCell (mkBoard n f) r c = (decide (r < n) && decide (c < n) && f r c) := by
  unfold getCell mkBoard
  rw [mapRange_getElem?]
  by_cases hr : r < n
  · simp only [hr, if_true, List.getD_eq_getElem?_getD, mapRange_getElem?]
    by_cases hc : c < n <;> simp [hc]
  · simp [hr]

theorem setCell_mkBoard (n : Nat) (f : Nat → Nat → Bool) (r c : Nat) (v : Bool) (hr : r < n) :
    setCell (mkBoard n f) r c v = mkBoard n fun a b => if a = r ∧ b = c then v else f a b := by
  unfold setCell mkBoard
  rw [mapRange_getElem?]
  simp only [hr, if_true]
  rw [mapRange_set, mapRange_set]
  apply mapRange_congr
  intro a _
  by_cases ha : a = r
  · subst ha
    simp
  · simp [ha]

theorem mkBoard_congr (n : Nat) (f g : Nat → Nat → Bool)
    (h : ∀ r c, r < n → c < n → f r c = g r c) : mkBoard n f = mkBoard n g := by
  unfold mkBoard
  apply mapRange_congr
  intro r hr
  apply mapRange_congr
  intro c hc
  exact h r c hr hc

theorem transposeBoard_mkBoard (n : Nat) (f : Nat → Nat → Bool) :
    transposeBoard (mkBoard n f) = mkBoard n fun r c => f c r := by
  unfold transposeBoard
  rw [mkBoard_length]
  unfold mkBoard
  apply mapRange_congr
  intro r hr
  apply mapRange_congr
  intro c hc
  have := getCell_mkBoard n f c r
  unfold mkBoard at this
  rw [this]
  simp [hr, hc]

theorem emptyBoard_eq (n : Nat) : emptyBoard n = mkBoard n fun _ _ => false := by
  unfold emptyBoard mkBoard
  apply List.ext_getElem?
  intro i
  rw [mapRange_getElem?]
  by_cases hi : i < n
  · simp only [hi, if_true]
    rw [List.getElem?_replicate]
    simp only [hi, if_true, Option.some.injEq]
    apply List.ext_getElem?
    intro k
    rw [mapRange_getElem?, List.getElem?_replicate]
  · simp [hi, List.getElem?_replicate]

/-! ## Placements and the locals of the two searches -/

theorem snoc_getElem? (p : List Nat) (v k : Nat) :
    (p ++ [v])[k]? = if k < p.length then p[k]? else if k = p.length then some v else none := by
  by_cases h1 : k < p.length
  · simp [h1, List.getElem?_append_left]
  · by_cases h2 : k = p.length
    · subst h2; simp
    · have : p.length + 1 ≤ k := by omega
      simp [h1, h2, List.getElem?_eq_none, this]

theorem qpOf_set_snoc (n : Nat) (p : List Nat) (v : Nat) :
    (qpOf n p).set p.length (v : Int) = qpOf n (p ++ [v]) := by
  unfold qpOf
  rw [mapRange_set]
  apply mapRange_congr
  intro k _
  rw [snoc_getElem?]
  by_cases h1 : k < p.length
  · have : ¬ k = p.length := by omega
    simp [h1, this]
  · by_cases h2 : k = p.length
    · simp [h2]
    · have : p.length ≤ k := by omega
      simp [h1, h2, List.getElem?_eq_none, this]

theorem qpOf_unset_snoc (n : Nat) (p : List Nat) (v : Nat) :
    (qpOf n (p ++ [v])).set p.length (-1) = qpOf n p := by
  unfold qpOf
  rw [mapRange_set]
  apply mapRange_congr
  intro k _
  rw [snoc_getElem?]
  by_cases h1 : k < p.length
  · have : ¬ k = p.length := by omega
    simp [h1, this]
  · by_cases h2 : k = p.length
    · simp [h2]
    · have : p.length ≤ k := by omega
      simp [h1, h2, List.getElem?_eq_none, this]

theorem rowBoard_set_snoc (n : Nat) (p : List Nat) (v : Nat) (h : p.length < n) :
    setCell (rowBoard n p) p.length v true = rowBoard n (p ++ [v]) := by
  unfold rowBoard
  rw [setCell_mkBoard _ _ _ _ _ h]
  apply mkBoard_congr
  intro a b _ _
  rw [snoc_getElem?]
  by_cases h1 : a < p.length
  · have : ¬ a = p.length := by omega
    simp [h1, this]
  · by_cases h2 : a = p.length
    · subst h2
      by_cases hb : b = v
      · simp [hb]
      · have : ¬ v = b := fun h => hb h.symm
        simp [hb, this]
    · have : p.length ≤ a := by omega
      simp [h1, h2, List.getElem?_eq_none, this]

theorem rowBoard_unset_snoc (n : Nat) (p : List Nat) (v : Nat) (h : p.length < n) :
    setCell (rowBoard n (p ++ [v])) p.length v false = rowBoard n p := by
  unfold rowBoard
  rw [setCell_mkBoard _ _ _ _ _ h]
  apply mkBoard_congr
  intro a b _ _
  rw [snoc_getElem?]
  by_cases h1 : a < p.length
  · have : ¬ a = p.length := by omega
    simp [h1, this]
  · by_cases h2 : a = p.length
    · subst h2
      by_cases hb : b = v
      · simp [hb]
      · have : ¬ v = b := fun h => hb h.symm
        simp [hb, this]
    · have : p.length ≤ a := by omega
      simp [h1, h2, List.getElem?_eq_none, this]

theorem colBoard_set_snoc (n : Nat) (p : List Nat) (v : Nat) (h : v < n) :
    setCell (colBoard n p) v p.length true = colBoard n (p ++ [v]) := by
  unfold colBoard
  rw [setCell_mkBoard _ _ _ _ _ h]
  apply mkBoard_congr
  intro a b _ _
  rw [snoc_getElem?]
  by_cases h1 : b < p.length
  · have : ¬ b = p.length := by omega
    simp [h1, this]
  · by_cases h2 : b = p.length
    · subst h2
      by_cases ha : a = v
      · simp [ha]
      · have : ¬ v = a := fun h => ha h.symm
        simp [ha, this]
    · have : p.length ≤ b := by omega
      simp [h1, h2, List.getElem?_eq_none, this]

theorem colBoard_unset_snoc (n : Nat) (p : List Nat) (v : Nat) (h : v < n) :
    setCell (colBoard n (p ++ [v])) v p.length false = colBoard n p := by
  unfold colBoard
  rw [setCell_mkBoard _ _ _ _ _ h]
  apply mkBoard_congr
  intro a b _ _
  rw [snoc_getElem?]
  by_cases h1 : b < p.length
  · have : ¬ b = p.length := by omega
    simp [h1, this]
  · by_cases h2 : b = p.length
    · subst h2
      by_cases ha : a = v
      · simp [ha]
      · have : ¬ v = a := fun h => ha h.symm
        simp [ha, this]
    · have : p.length ≤ b := by omega
      simp [h1, h2, List.getElem?_eq_none, this]

theorem transposeBoard_rowBoard (n : Nat) (p : List Nat) :
    transposeBoard (rowBoard n p) = colBoard n p := by
  unfold rowBoard colBoard
  rw [transposeBoard_mkBoard]

theorem getCell_colBoard (n : Nat) (p : List Nat) (r c : Nat) :
    getCell (colBoard n p) r c = (decide (r < n) && decide (c < n) && decide (p[c]? = some r)) := by
  unfold colBoard
  rw [getCell_mkBoard]

theorem getCell_rowBoard (n : Nat) (p : List Nat) (r c : Nat) :
    getCell (rowBoard n p) r c = (decide (r < n) && decide (c < n) && decide (p[r]? = some c)) := by
  unfold rowBoard
  rw [getCell_mkBoard]

theorem compat_iff (p : List Nat) (j v : Nat) :
    compat p j v = true ↔ ∀ (i q : Nat), p[i]? = some q →
      q ≠ v ∧ ((q : Int) - (v : Int)).natAbs ≠ ((i : Int) - (j : Int)).natAbs := by
  unfold compat
  rw [List.all_eq_true]
  constructor
  · intro h i q hq
    have hi : i < p.length := by
      by_contra hc
      rw [List.getElem?_eq_none (by omega)] at hq
      exact Option.noConfusion hq
    have := h i (List.mem_range.2 hi)
    rw [hq] at this
    simpa using this
  · intro h i _
    cases hq : p[i]? with
    | none => rfl
    | some q => simpa using h i q hq

theorem isSafe_qpOf (n : Nat) (p : List Nat) (v : Nat) (h : p.length ≤ n) :
    isSafe (qpOf n p) p.length v = compat p p.length v := by
  unfold isSafe compat
  rw [Bool.eq_iff_iff, List.all_eq_true, List.all_eq_true]
  refine forall_congr' fun i => forall_congr' fun hi => ?_
  have hi : i < p.length := List.mem_range.1 hi
  rw [← Bool.eq_iff_iff]
  have hq : (qpOf n p)[i]? = some ((p[i] : Nat) : Int) := by
    unfold qpOf
    rw [mapRange_getElem?]
    simp [show i < n by omega, List.getElem?_eq_getElem hi]
  rw [hq, List.getElem?_eq_getElem hi]
  simp only
  by_cases h1 : p[i] = v
  · simp [h1]
  · have h1' : ¬ ((p[i] : Nat) : Int) = (v : Int) := by
      intro hc; exact h1 (by exact_mod_cast hc)
    by_cases h2 : ((p[i] : Int) - (v : Int)).natAbs = ((i : Int) - (p.length : Int)).natAbs
    · simp [h1, h1', h2]
    · simp [h1, h1', h2]

theorem compat_snoc (p : List Nat) (u j v : Nat) :
    compat (p ++ [u]) j v = (compat p j v &&
      decide (u ≠ v ∧ ((u : Int) - (v : Int)).natAbs ≠ ((p.length : Int) - (j : Int)).natAbs)) := by
  rw [Bool.eq_iff_iff]
  simp only [Bool.and_eq_true, compat_iff, decide_eq_true_eq]
  constructor
  · intro h
    refine ⟨fun i q hq => h i q ?_, h p.length u (by simp)⟩
    rw [snoc_getElem?]
    have hi : i < p.length := by
      by_contra hc
      rw [List.getElem?_eq_none (by omega)] at hq
      exact Option.noConfusion hq
    simp [hi, hq]
  · rintro ⟨h1, h2⟩ i q hq
    rw [snoc_getElem?] at hq
    by_cases hi : i < p.length
    · simp only [hi, if_true] at hq
      exact h1 i q hq
    · by_cases hi2 : i = p.length
      · subst hi2
        simp only [Nat.lt_irrefl, if_false, if_true, Option.some.injEq] at hq
        subst hq
        exact h2
      · simp [hi, hi2] at hq

theorem row_free_of_compat (n : Nat) (p : List Nat) (j v c : Nat) (h : compat p j v = true) :
    getCell (colBoard n p) v c = false := by
  rw [getCell_colBoard]
  by_cases hp : p[c]? = some v
  · exact absurd rfl ((compat_iff p j v).1 h c v hp).1
  · simp [hp]

/-! ## The DFS search finds the first complete placement -/

theorem getLast?_cons_of_some {α : Type} (a x : α) (t : List α) (h : t.getLast? = some x) :
    (a :: t).getLast? = some x := by
  cases t with
  | nil => simp at h
  | cons b t => rw [List.getLast?_cons_cons]; exact h

theorem getLast?_or_of_some {α : Type} (x : α) (o1 o2 : Option α) (h : o1 = some x) :
    o1.or o2 = some x := by
  subst h; rfl

theorem dfsLoopT_spec (n : Nat) (dfsNextT : DfsState → Bool × DfsState × List Step)
    (next : List Nat → Option (List Nat)) (p : List Nat) (hp : p.length < n)
    (hnext : ∀ v, v < n →
      (dfsNextT (dfsStateOf n (p ++ [v]))).1 = (next (p ++ [v])).isSome ∧
      (dfsNextT (dfsStateOf n (p ++ [v]))).2.1 = dfsStateOf n ((next (p ++ [v])).getD (p ++ [v])) ∧
      ∀ f, next (p ++ [v]) = some f →
        (dfsNextT (dfsStateOf n (p ++ [v]))).2.2.getLast? = some ⟨rowBoard n f, .solution⟩) :
    ∀ cands, (∀ v ∈ cands, v < n) →
      (dfsLoopT dfsNextT p.length cands (dfsStateOf n p)).1 = (findLoop next cands p).isSome ∧
      (dfsLoopT dfsNextT p.length cands (dfsStateOf n p)).2.1 =
        dfsStateOf n ((findLoop next cands p).getD p) ∧
      ∀ f, findLoop next cands p = some f →
        (dfsLoopT dfsNextT p.length cands (dfsStateOf n p)).2.2.getLast? =
          some ⟨rowBoard n f, .solution⟩ := by
  intro cands
  induction cands with
  | nil => intro _; simp [dfsLoopT, findLoop]
  | cons v vs ih =>
    intro hc
    have hv : v < n := hc v (List.mem_cons_self _ _)
    have ih' := ih (fun x hx => hc x (List.mem_cons_of_mem _ hx))
    rw [dfsLoopT, findLoop]
    have hsafe : isSafe (dfsStateOf n p).queenPositions p.length v = compat p p.length v :=
      isSafe_qpOf n p v (by omega)
    rw [hsafe]
    by_cases hcm : compat p p.length v = true
    · simp only [hcm, if_true]
      have hs1 : (⟨(dfsStateOf n p).queenPositions.set p.length (v : Int),
          setCell (dfsStateOf n p).boardState p.length v true⟩ : DfsState)
          = dfsStateOf n (p ++ [v]) := by
        simp only [dfsStateOf, qpOf_set_snoc, rowBoard_set_snoc n p v hp]
      rw [hs1]
      obtain ⟨h1, h2, h3⟩ := hnext v hv
      cases hnx : next (p ++ [v]) with
      | some f =>
        rw [hnx] at h1 h2
        simp only [Option.isSome_some] at h1
        have h4 := h3 f hnx
        simp only [h1, if_true, h2, Option.getD_some, Option.isSome_some, Option.some.injEq,
          true_and]
        intro f2 hf2
        subst hf2
        exact getLast?_cons_of_some _ _ _ h4
      | none =>
        rw [hnx] at h1 h2
        simp only [Option.isSome_none] at h1
        simp only [Option.getD_none] at h2
        simp only [h1, Bool.false_eq_true, if_false, h2]
        have hs3 : (⟨(dfsStateOf n (p ++ [v])).queenPositions.set p.length (-1),
            setCell (dfsStateOf n (p ++ [v])).boardState p.length v false⟩
            : DfsState) = dfsStateOf n p := by
          simp only [dfsStateOf, qpOf_unset_snoc, rowBoard_unset_snoc n p v hp]
        rw [hs3]
        refine ⟨ih'.1, ih'.2.1, fun f hf => ?_⟩
        apply getLast?_cons_of_some
        rw [List.getLast?_append]
        apply getLast?_or_of_some
        exact getLast?_cons_of_some _ _ _ (ih'.2.2 f hf)
    · simp only [hcm, Bool.false_eq_true, if_false]
      exact ih'

theorem dfsT_spec (n : Nat) : ∀ fuel p, p.length ≤ n →
    (dfsT n fuel p.length (dfsStateOf n p)).1 = (findSol n fuel p).isSome ∧
    (dfsT n fuel p.length (dfsStateOf n p)).2.1 = dfsStateOf n ((findSol n fuel p).getD p) ∧
    ∀ f, findSol n fuel p = some f →
      (dfsT n fuel p.length (dfsStateOf n p)).2.2.getLast? = some ⟨rowBoard n f, .solution⟩ := by
  intro fuel
  induction fuel with
  | zero => intro p _; simp [dfsT, findSol]
  | succ fuel ih =>
    intro p hp
    rw [dfsT, findSol]
    by_cases hn : p.length = n
    · simp only [hn, if_true, Option.isSome_some, Option.getD_some, Option.some.injEq, true_and]
      intro f hf
      subst hf
      simp [dfsStateOf]
    · simp only [hn, if_false]
      exact dfsLoopT_spec n _ _ p (by omega)
        (fun v _ => by
          have := ih (p ++ [v]) (by simp; omega)
          simpa using this)
        _ (fun v hv => List.mem_range.1 hv)

/-! ## Soundness and completeness of the search order -/

theorem getD_snoc (p : List Nat) (v i : Nat) :
    (p ++ [v]).getD i 0 = if i < p.length then p.getD i 0 else if i = p.length then v else 0 := by
  rw [List.getD_eq_getElem?_getD, List.getD_eq_getElem?_getD, snoc_getElem?]
  by_cases h1 : i < p.length
  · simp [h1]
  · by_cases h2 : i = p.length <;> simp [h1, h2]

theorem safe_snoc (p : List Nat) (v : Nat) (hs : Safe p) (hc : compat p p.length v = true) :
    Safe (p ++ [v]) := by
  intro i j hij hj
  simp only [List.length_append, List.length_singleton] at hj
  rw [getD_snoc, getD_snoc]
  by_cases h1 : j < p.length
  · have h2 : i < p.length := by omega
    simp only [h1, h2, if_true]
    exact hs i j hij h1
  · have h2 : j = p.length := by omega
    have h3 : i < p.length := by omega
    simp only [h1, h2, h3, if_true, if_false, Nat.lt_irrefl]
    have hq : p[i]? = some (p.getD i 0) := by
      rw [List.getD_eq_getElem?_getD, List.getElem?_eq_getElem h3]
      rfl
    have := (compat_iff p p.length v).1 hc i _ hq
    omega

theorem compat_of_safe (full : List Nat) (k : Nat) (hs : Safe full) (hk : k < full.length) :
    compat (full.take k) k (full.getD k 0) = true := by
  rw [compat_iff]
  intro i q hq
  rw [List.getElem?_take] at hq
  by_cases hi : i < k
  · simp only [hi, if_true] at hq
    have hq2 : full.getD i 0 = q := by
      rw [List.getD_eq_getElem?_getD, hq]
      rfl
    have := hs i k hi hk
    rw [hq2] at this
    omega
  · simp [hi] at hq

theorem take_succ_getD (full : List Nat) (k : Nat) (hk : k < full.length) :
    full.take (k + 1) = full.take k ++ [full.getD k 0] := by
  rw [List.take_succ, List.getD_eq_getElem?_getD, List.getElem?_eq_getElem hk]
  rfl

theorem findLoop_sound (n : Nat) (next : List Nat → Option (List Nat)) (p : List Nat)
    (hnext : ∀ v f, v < n → compat p p.length v = true → next (p ++ [v]) = some f →
      f.length = n ∧ (∀ x ∈ f, x < n) ∧ Safe f) :
    ∀ cands, (∀ v ∈ cands, v < n) → ∀ f, findLoop next cands p = some f →
      f.length = n ∧ (∀ x ∈ f, x < n) ∧ Safe f := by
  intro cands
  induction cands with
  | nil => intro _ f h; simp [findLoop] at h
  | cons v vs ih =>
    intro hc f h
    have hv : v < n := hc v (List.mem_cons_self _ _)
    have ih' := ih (fun x hx => hc x (List.mem_cons_of_mem _ hx))
    rw [findLoop] at h
    by_cases hcm : compat p p.length v = true
    · simp only [hcm, if_true] at h
      cases hnx : next (p ++ [v]) with
      | some f2 =>
        rw [hnx] at h
        simp only [Option.some.injEq] at h
        subst h
        exact hnext v f2 hv hcm hnx
      | none =>
        rw [hnx] at h
        exact ih' f h
    · simp only [hcm, Bool.false_eq_true, if_false] at h
      exact ih' f h

theorem findSol_sound (n : Nat) : ∀ fuel p f, (∀ x ∈ p, x < n) → Safe p →
    findSol n fuel p = some f → f.length = n ∧ (∀ x ∈ f, x < n) ∧ Safe f := by
  intro fuel
  induction fuel with
  | zero => intro p f _ _ h; simp [findSol] at h
  | succ fuel ih =>
    intro p f hlt hs h
    rw [findSol] at h
    by_cases hn : p.length = n
    · simp only [hn, if_true, Option.some.injEq] at h
      subst h
      exact ⟨hn, hlt, hs⟩
    · simp only [hn, if_false] at h
      refine findLoop_sound n _ p ?_ _ (fun v hv => List.mem_range.1 hv) f h
      intro v f2 hv hcm hf2
      refine ih (p ++ [v]) f2 ?_ (safe_snoc p v hs hcm) hf2
      intro x hx
      rcases List.mem_append.1 hx with hx | hx
      · exact hlt x hx
      · simp only [List.mem_singleton] at hx
        omega

theorem findLoop_complete (next : List Nat → Option (List Nat)) (p : List Nat) (v0 : Nat)
    (hc : compat p p.length v0 = true) (hn : (next (p ++ [v0])).isSome = true) :
    ∀ cands, v0 ∈ cands → (findLoop next cands p).isSome = true := by
  intro cands
  induction cands with
  | nil => intro h; simp at h
  | cons v vs ih =>
    intro hmem
    rw [findLoop]
    by_cases hcm : compat p p.length v = true
    · simp only [hcm, if_true]
      cases hnx : next (p ++ [v]) with
      | some f => rfl
      | none =>
        have hne : v0 ≠ v := by
          intro he
          subst he
          rw [hnx] at hn
          simp at hn
        rcases List.mem_cons.1 hmem with h | h
        · exact absurd h hne
        · exact ih h
    · simp only [hcm, Bool.false_eq_true, if_false]
      have hne : v0 ≠ v := by
        intro he
        subst he
        exact hcm hc
      rcases List.mem_cons.1 hmem with h | h
      · exact absurd h hne
      · exact ih h

theorem findSol_complete (n : Nat) (full : List Nat) (hlen : full.length = n)
    (hlt : ∀ x ∈ full, x < n) (hs : Safe full) :
    ∀ fuel k, k ≤ n → n < fuel + k → (findSol n fuel (full.take k)).isSome = true := by
  intro fuel
  induction fuel with
  | zero => intro k h1 h2; omega
  | succ fuel ih =>
    intro k h1 h2
    rw [findSol]
    have hlk : (full.take k).length = k := by
      rw [List.length_take]; omega
    by_cases hn : k = n
    · rw [if_pos (by rw [hlk]; exact hn)]
      rfl
    · rw [if_neg (by rw [hlk]; exact hn)]
      have hk : k < full.length := by omega
      have hc := compat_of_safe full k hs hk
      have hnx := ih (k + 1) (by omega) (by omega)
      rw [take_succ_getD full k hk] at hnx
      have := findLoop_complete (findSol n fuel) (full.take k) (full.getD k 0)
        (by rw [hlk]; exact hc) hnx (List.range n) (by
          apply List.mem_range.2
          apply hlt
          rw [List.getD_eq_getElem?_getD, List.getElem?_eq_getElem hk]
          exact List.getElem_mem _)
      exact this

/-! ## A solution exists for every board size but 2 and 3 -/

theorem witnessCol_lt (n p : Nat) (hn : n = 1 ∨ 4 ≤ n) (hp : p < n) : witnessCol n p < n := by
  unfold witnessCol
  split_ifs <;> omega

theorem witnessCol_safe (n i j : Nat) (hn : 4 ≤ n) (hij : i < j) (hj : j < n) :
    witnessCol n i ≠ witnessCol n j ∧ witnessCol n i + (j - i) ≠ witnessCol n j ∧
    witnessCol n j + (j - i) ≠ witnessCol n i := by
  unfold witnessCol
  split_ifs <;> omega

theorem exists_solution (n : Nat) (hn : n = 1 ∨ 4 ≤ n) :
    ∃ full : List Nat, full.length = n ∧ (∀ x ∈ full, x < n) ∧ Safe full := by
  refine ⟨(List.range n).map (witnessCol n), by simp, ?_, ?_⟩
  · intro x hx
    simp only [List.mem_map, List.mem_range] at hx
    obtain ⟨p, hp, rfl⟩ := hx
    exact witnessCol_lt n p hn hp
  · intro i j hij hj
    simp only [List.length_map, List.length_range] at hj
    have hgi : ((List.range n).map (witnessCol n)).getD i 0 = witnessCol n i := by
      rw [List.getD_eq_getElem?_getD, mapRange_getElem?]
      simp [show i < n by omega]
    have hgj : ((List.range n).map (witnessCol n)).getD j 0 = witnessCol n j := by
      rw [List.getD_eq_getElem?_getD, mapRange_getElem?]
      simp [hj]
    rw [hgi, hgj]
    rcases hn with h1 | h4
    · omega
    · exact witnessCol_safe n i j h4 hij hj

theorem findSol_isSome (n : Nat) (hn : n = 1 ∨ 4 ≤ n) :
    ∃ f, findSol n (n + 1) [] = some f ∧ f.length = n ∧ (∀ x ∈ f, x < n) ∧ Safe f := by
  obtain ⟨full, hlen, hlt, hs⟩ := exists_solution n hn
  have h := findSol_complete n full hlen hlt hs (n + 1) 0 (by omega) (by omega)
  simp only [List.take_zero] at h
  obtain ⟨f, hf⟩ := Option.isSome_iff_exists.1 h
  refine ⟨f, hf, findSol_sound n (n + 1) [] f (by simp) ?_ hf⟩
  intro i j _ hj
  simp at hj

/-! ## Constraint propagation -/

theorem foldl_set_length (g : Nat → List Nat → List Nat) (col : Nat) :
    ∀ (m : Nat) (d : List (List Nat)),
      ((List.range m).foldl
        (fun nd j => if col ≠ j then nd.set j (g j (nd.getD j [])) else nd) d).length
        = d.length := by
  intro m
  induction m with
  | zero => intro d; rfl
  | succ m ih =>
    intro d
    rw [List.range_succ, List.foldl_append]
    simp only [List.foldl_cons, List.foldl_nil]
    split
    · rw [List.length_set, ih]
    · exact ih d

theorem foldl_set_getElem? (g : Nat → List Nat → List Nat) (col : Nat) :
    ∀ (m : Nat) (d : List (List Nat)) (k : Nat),
      ((List.range m).foldl
        (fun nd j => if col ≠ j then nd.set j (g j (nd.getD j [])) else nd) d)[k]?
        = if k < m ∧ k ≠ col then (d[k]?).map (g k) else d[k]? := by
  intro m
  induction m with
  | zero => intro d k; simp
  | succ m ih =>
    intro d k
    rw [List.range_succ, List.foldl_append]
    simp only [List.foldl_cons, List.foldl_nil]
    by_cases hc : col ≠ m
    · simp only [hc, if_true, ne_eq, not_false_eq_true]
      rw [List.getElem?_set, foldl_set_length, List.getD_eq_getElem?_getD, ih, ih]
      by_cases hk : m = k
      · subst hk
        have hc' : ¬ m = col := fun h => hc h.symm
        simp only [Nat.lt_irrefl, false_and, if_false, if_true, Nat.lt_succ_self, true_and,
          ne_eq, hc', not_false_eq_true]
        by_cases hl : m < d.length
        · simp [hl, List.getElem?_eq_getElem hl]
        · simp [hl, List.getElem?_eq_none (Nat.le_of_not_lt hl)]
      · simp only [hk, if_false]
        have : (k < m + 1) ↔ (k < m) := by omega
        simp only [this]
    · have hc' : col = m := by simpa using hc
      simp only [hc, if_false]
      rw [ih]
      by_cases hk : k = col
      · simp [hk]
      · have : (k < m + 1) ↔ (k < m) := by omega
        simp only [this]

theorem propagate_length (n v col : Nat) (dom : List (List Nat)) :
    (propagateConstraints n v col dom).length = dom.length := by
  unfold propagateConstraints
  simp only [List.map_id']
  have h1 := foldl_set_length (fun _ l => l.filter fun x => decide (x ≠ v)) col n dom
  have h2 := foldl_set_length
    (fun k l => l.filter fun (x : Nat) => decide ((x : Int) ≠ (v : Int) -
      ((((col : Int) - (k : Int)).natAbs : Nat) : Int) ∧ (x : Int) ≠ (v : Int) +
      ((((col : Int) - (k : Int)).natAbs : Nat) : Int))) col n
    ((List.range n).foldl
      (fun nd j => if col ≠ j then nd.set j ((nd.getD j []).filter fun x => decide (x ≠ v))
        else nd) dom)
  simp only at h1 h2
  rw [h2, h1]

theorem propagate_getElem? (n v col : Nat) (dom : List (List Nat)) (j : Nat) (hj : j < n)
    (hjc : j ≠ col) :
    (propagateConstraints n v col dom)[j]? = (dom[j]?).map fun (l : List Nat) =>
      (l.filter fun (x : Nat) => decide (x ≠ v)).filter fun (x : Nat) => decide ((x : Int) ≠ (v : Int) -
        ((((col : Int) - (j : Int)).natAbs : Nat) : Int) ∧ (x : Int) ≠ (v : Int) +
        ((((col : Int) - (j : Int)).natAbs : Nat) : Int)) := by
  unfold propagateConstraints
  simp only [List.map_id']
  have h1 := foldl_set_getElem? (fun _ l => l.filter fun x => decide (x ≠ v)) col n dom j
  have h2 := foldl_set_getElem?
    (fun k l => l.filter fun (x : Nat) => decide ((x : Int) ≠ (v : Int) -
      ((((col : Int) - (k : Int)).natAbs : Nat) : Int) ∧ (x : Int) ≠ (v : Int) +
      ((((col : Int) - (k : Int)).natAbs : Nat) : Int))) col n
    ((List.range n).foldl
      (fun nd j => if col ≠ j then nd.set j ((nd.getD j []).filter fun x => decide (x ≠ v))
        else nd) dom) j
  simp only [hj, hjc, ne_eq, not_false_eq_true, and_self, if_true] at h1 h2
  rw [h2, h1]
  cases dom[j]? <;> rfl

theorem domOK_propagate (n : Nat) (p : List Nat) (v : Nat) (dom : List (List Nat))
    (h : DomOK n p dom) : DomOK n (p ++ [v]) (propagateConstraints n v p.length dom) := by
  refine ⟨by rw [propagate_length]; exact h.1, ?_⟩
  intro j hj hjn
  simp only [List.length_append, List.length_singleton] at hj
  rw [propagate_getElem? n v p.length dom j hjn (by omega), h.2 j (by omega) hjn]
  simp only [Option.map_some', Option.some.injEq, List.filter_filter]
  apply List.filter_congr
  intro r _
  rw [compat_snoc, Bool.eq_iff_iff]
  simp only [Bool.and_eq_true, decide_eq_true_eq]
  constructor
  · rintro ⟨⟨⟨h1, h2⟩, h3⟩, h4⟩
    exact ⟨h4, by omega, by omega⟩
  · rintro ⟨h1, h2, h3⟩
    exact ⟨⟨⟨by omega, by omega⟩, by omega⟩, h1⟩

theorem domOK_full (n : Nat) : DomOK n [] (fullDomain n) := by
  refine ⟨by simp [fullDomain], ?_⟩
  intro j _ hj
  have hc : ∀ r, compat [] j r = true := by
    intro r; simp [compat]
  simp [fullDomain, List.getElem?_replicate, hj, hc]

/-! ## The CSP search is the DFS search with rows and columns swapped -/

theorem placings_cons_placing (b : Board) (r c : Nat) (t : List Step) :
    placings (⟨b, Msg.placing r c⟩ :: t) = placings t + 1 := by
  simp [placings, List.countP_cons]

theorem placings_cons_backtracking (b : Board) (r c : Nat) (t : List Step) :
    placings (⟨b, Msg.backtracking r c⟩ :: t) = placings t := by
  simp [placings, List.countP_cons]

theorem placings_append (t1 t2 : List Step) :
    placings (t1 ++ t2) = placings t1 + placings t2 := by
  simp [placings, List.countP_append]

theorem solveLoopT_spec (n : Nat)
    (solveNextT : List (List Nat) → CspState → Bool × CspState × List Step)
    (dfsNextT : DfsState → Bool × DfsState × List Step)
    (next : List Nat → Option (List Nat)) (p : List Nat) (hp : p.length < n)
    (dom : List (List Nat))
    (hd : ∀ v, v < n →
      (dfsNextT (dfsStateOf n (p ++ [v]))).1 = (next (p ++ [v])).isSome ∧
      (dfsNextT (dfsStateOf n (p ++ [v]))).2.1 = dfsStateOf n ((next (p ++ [v])).getD (p ++ [v])))
    (hnext : ∀ v, v < n → compat p p.length v = true → ∀ s1 : CspState,
      s1.boardState = colBoard n (p ++ [v]) →
      CspMatches n (solveNextT (propagateConstraints n v p.length dom) s1)
        (dfsNextT (dfsStateOf n (p ++ [v]))) s1 ((next (p ++ [v])).getD (p ++ [v]))) :
    ∀ cands, (∀ v ∈ cands, v < n) → ∀ s : CspState, s.boardState = colBoard n p →
      CspMatches n
        (solveLoopT n solveNextT p.length (cands.filter (compat p p.length)) dom s)
        (dfsLoopT dfsNextT p.length cands (dfsStateOf n p)) s
        ((findLoop next cands p).getD p) := by
  intro cands
  induction cands with
  | nil =>
    intro _ s hs
    simp only [List.filter_nil, solveLoopT, dfsLoopT, findLoop, CspMatches, Option.getD_none,
      List.map_nil]
    exact ⟨trivial, trivial, hs, fun e he => Or.inl he, fun g hg => Or.inl hg,
      List.prefix_refl _, by simp [placings]⟩
  | cons v vs ih =>
    intro hc s hs
    have hv : v < n := hc v (List.mem_cons_self _ _)
    have ih' := ih (fun x hx => hc x (List.mem_cons_of_mem _ hx))
    have hsafe : isSafe (dfsStateOf n p).queenPositions p.length v = compat p p.length v :=
      isSafe_qpOf n p v (by omega)
    rw [dfsLoopT, findLoop, hsafe]
    by_cases hcm : compat p p.length v = true
    · rw [List.filter_cons_of_pos hcm, solveLoopT]
      have hg : getCell s.boardState v p.length = false := by
        rw [hs]; exact row_free_of_compat n p p.length v p.length hcm
      simp only [hcm, if_true, hg, Bool.not_false, List.map_id']
      have hgood : GoodGuard n (v, p.length, s.boardState) := ⟨p, rfl, hs, hcm⟩
      generalize hS1 : (CspState.mk (setCell s.boardState v p.length true) s.calls
        (s.guards ++ [(v, p.length, s.boardState)])) = S1
      have hS1b : S1.boardState = colBoard n (p ++ [v]) := by
        subst hS1
        simp only [hs, colBoard_set_snoc n p v hv]
      have hS1c : S1.calls = s.calls := by subst hS1; rfl
      have hS1g : S1.guards = s.guards ++ [(v, p.length, s.boardState)] := by subst hS1; rfl
      have hb1 : setCell s.boardState v p.length true = colBoard n (p ++ [v]) := by
        simp only [hs, colBoard_set_snoc n p v hv]
      have hs1 : (⟨(dfsStateOf n p).queenPositions.set p.length (v : Int),
          setCell (dfsStateOf n p).boardState p.length v true⟩ : DfsState)
          = dfsStateOf n (p ++ [v]) := by
        simp only [dfsStateOf, qpOf_set_snoc, rowBoard_set_snoc n p v hp]
      have hb1d : setCell (dfsStateOf n p).boardState p.length v true = rowBoard n (p ++ [v]) := by
        simp only [dfsStateOf, rowBoard_set_snoc n p v hp]
      rw [hs1]
      simp only [hb1, hb1d]
      obtain ⟨H1, H2, H3, H4, H5, H6, H7⟩ := hnext v hv hcm S1 hS1b
      rw [hS1c] at H6
      have H7' : (solveNextT (propagateConstraints n v p.length dom) S1).2.1.guards.length =
          s.guards.length + 1 +
            placings (solveNextT (propagateConstraints n v p.length dom) S1).2.2 := by
        rw [H7, hS1g]
        simp
      obtain ⟨hd1, hd2⟩ := hd v hv
      generalize solveNextT (propagateConstraints n v p.length dom) S1 = R at H1 H2 H3 H4 H5 H6 H7' ⊢
      generalize dfsNextT (dfsStateOf n (p ++ [v])) = D at H1 H2 hd1 hd2 ⊢
      have hstep : swapStep ⟨rowBoard n (p ++ [v]), Msg.trying p.length v⟩ =
          ⟨colBoard n (p ++ [v]), Msg.placing v p.length⟩ := by
        simp only [swapStep, swapMsg, transposeBoard_rowBoard]
      cases hnx : next (p ++ [v]) with
      | some f =>
        rw [hnx] at hd1 hd2 H3
        simp only [Option.isSome_some] at hd1
        simp only [Option.getD_some] at H3
        have hR1 : R.1 = true := by rw [H1, hd1]
        simp only [hR1, hd1, if_true, Option.getD_some]
        refine ⟨rfl, ?_, H3, ?_, ?_, H6, ?_⟩
        · simp only [List.map_cons, hstep, H2]
        · intro e he
          rcases H4 e he with h | h
          · exact Or.inl (hS1c ▸ h)
          · exact Or.inr h
        · intro g hgm
          rcases H5 g hgm with h | h
          · rw [hS1g] at h
            rcases List.mem_append.1 h with h | h
            · exact Or.inl h
            · simp only [List.mem_singleton] at h
              subst h
              exact Or.inr hgood
          · exact Or.inr h
        · rw [H7', placings_cons_placing]
          omega
      | none =>
        rw [hnx] at hd1 hd2 H3
        simp only [Option.isSome_none] at hd1
        simp only [Option.getD_none] at H3 hd2
        have hR1 : R.1 = false := by rw [H1, hd1]
        simp only [hR1, hd1, Bool.false_eq_true, if_false]
        have hs3 : (⟨D.2.1.queenPositions.set p.length (-1),
            setCell D.2.1.boardState p.length v false⟩ : DfsState) = dfsStateOf n p := by
          rw [hd2]
          simp only [dfsStateOf, qpOf_unset_snoc, rowBoard_unset_snoc n p v hp]
        have hb3d : setCell D.2.1.boardState p.length v false = rowBoard n p := by
          rw [hd2]
          simp only [dfsStateOf, rowBoard_unset_snoc n p v hp]
        have hb3 : setCell R.2.1.boardState v p.length false = colBoard n p := by
          rw [H3, colBoard_unset_snoc n p v hv]
        rw [hs3]
        simp only [hb3d, hb3]
        generalize hS3 : (CspState.mk (colBoard n p) R.2.1.calls R.2.1.guards) = S3
        have hS3c : S3.calls = R.2.1.calls := by subst hS3; rfl
        have hS3g : S3.guards = R.2.1.guards := by subst hS3; rfl
        obtain ⟨I1, I2, I3, I4, I5, I6, I7⟩ := ih' S3 (by subst hS3; rfl)
        rw [hS3c] at I6
        rw [hS3g] at I7
        have hbstep : swapStep ⟨rowBoard n p, Msg.backtracking p.length v⟩ =
            ⟨colBoard n p, Msg.backtracking v p.length⟩ := by
          simp only [swapStep, swapMsg, transposeBoard_rowBoard]
        refine ⟨I1, ?_, I3, ?_, ?_, H6.trans I6, ?_⟩
        · simp only [List.map_cons, List.map_append, hstep, hbstep, H2, I2]
        · intro e he
          rcases I4 e he with h | h
          · rw [hS3c] at h
            rcases H4 e h with h | h
            · exact Or.inl (hS1c ▸ h)
            · exact Or.inr h
          · exact Or.inr h
        · intro g hgm
          rcases I5 g hgm with h | h
          · rw [hS3g] at h
            rcases H5 g h with h | h
            · rw [hS1g] at h
              rcases List.mem_append.1 h with h | h
              · exact Or.inl h
              · simp only [List.mem_singleton] at h
                subst h
                exact Or.inr hgood
            · exact Or.inr h
          · exact Or.inr h
        · rw [I7, H7', placings_cons_placing, placings_append, placings_cons_backtracking]
          omega
    · rw [List.filter_cons_of_neg hcm]
      simp only [hcm, Bool.false_eq_true, if_false]
      exact ih' s hs

theorem solveT_spec (n : Nat) : ∀ (fuel : Nat) (p : List Nat) (dom : List (List Nat))
    (s : CspState), p.length ≤ n → (∀ x ∈ p, x < n) → DomOK n p dom →
    s.boardState = colBoard n p →
    CspMatches n (solveT n fuel p.length dom s) (dfsT n fuel p.length (dfsStateOf n p)) s
      ((findSol n fuel p).getD p) ∧
    (fuel ≠ 0 → (p.length, dom, s.boardState) ∈ (solveT n fuel p.length dom s).2.1.calls) := by
  intro fuel
  induction fuel with
  | zero =>
    intro p dom s _ _ _ hs
    simp only [solveT, dfsT, findSol, CspMatches, Option.getD_none, List.map_nil]
    exact ⟨⟨trivial, trivial, hs, fun e he => Or.inl he, fun g hg => Or.inl hg,
      List.prefix_refl _, by simp [placings]⟩, fun h => absurd rfl h⟩
  | succ fuel ih =>
    intro p dom s hp hplt hdom hs
    have hgood : GoodCall n (p.length, dom, s.boardState) := ⟨p, rfl, hp, hplt, hs, hdom⟩
    rw [solveT, dfsT, findSol]
    simp only
    generalize hS0 : (CspState.mk s.boardState (s.calls ++ [(p.length, dom, s.boardState)])
      s.guards) = S0
    have hS0b : S0.boardState = colBoard n p := by subst hS0; exact hs
    have hS0c : S0.calls = s.calls ++ [(p.length, dom, s.boardState)] := by subst hS0; rfl
    have hS0g : S0.guards = s.guards := by subst hS0; rfl
    have hcalls : ∀ e, e ∈ S0.calls → e ∈ s.calls ∨ GoodCall n e := by
      intro e he
      rw [hS0c] at he
      rcases List.mem_append.1 he with h | h
      · exact Or.inl h
      · simp only [List.mem_singleton] at h
        subst h
        exact Or.inr hgood
    by_cases hn : p.length = n
    · simp only [hn, if_true, Option.getD_some]
      refine ⟨⟨rfl, ?_, hS0b, hcalls, fun g hg => Or.inl (hS0g ▸ hg),
        hS0c ▸ List.prefix_append _ _, by simp [placings, hS0g]⟩, fun _ => by simp [hS0c, hn]⟩
      simp only [List.map_cons, List.map_nil, swapStep, swapMsg, dfsStateOf,
        transposeBoard_rowBoard, hS0b, hs]
    · simp only [hn, if_false]
      have hlt : p.length < n := by omega
      have hrows : dom.getD p.length [] = (List.range n).filter (compat p p.length) := by
        rw [List.getD_eq_getElem?_getD, hdom.2 p.length (Nat.le_refl _) hlt]
        rfl
      rw [hrows]
      have hlen : ∀ v, (p ++ [v]).length = p.length + 1 := by intro v; simp
      obtain ⟨L1, L2, L3, L4, L5, L6, L7⟩ := solveLoopT_spec n (solveT n fuel (p.length + 1))
        (dfsT n fuel (p.length + 1)) (findSol n fuel) p hlt dom
        (fun v _ => by
          have h := dfsT_spec n fuel (p ++ [v]) (by rw [hlen]; omega)
          rw [hlen] at h
          exact ⟨h.1, h.2.1⟩)
        (fun v hv _ s1 hs1 => by
          have h := (ih (p ++ [v]) (propagateConstraints n v p.length dom) s1
            (by rw [hlen]; omega)
            (by
              intro x hx
              rcases List.mem_append.1 hx with hx | hx
              · exact hplt x hx
              · simp only [List.mem_singleton] at hx
                omega)
            (domOK_propagate n p v dom hdom) hs1).1
          rw [hlen] at h
          exact h)
        (List.range n) (fun v hv => List.mem_range.1 hv) S0 hS0b
      have hpre : (s.calls ++ [(p.length, dom, s.boardState)]) <+:
          (solveLoopT n (solveT n fuel (p.length + 1)) p.length
            ((List.range n).filter (compat p p.length)) dom S0).2.1.calls := hS0c ▸ L6
      refine ⟨⟨L1, L2, L3, ?_, ?_, (List.prefix_append _ _).trans hpre, hS0g ▸ L7⟩,
        fun _ => hpre.subset (by simp)⟩
      · intro e he
        rcases L4 e he with h | h
        · exact hcalls e h
        · exact Or.inr h
      · intro g hg
        rcases L5 g hg with h | h
        · exact Or.inl (hS0g ▸ h)
        · exact Or.inr h

/-! ## The starting locals -/

theorem dfsInit_eq (n : Nat) : dfsInit n = dfsStateOf n [] := by
  unfold dfsInit dfsStateOf
  congr 1
  · unfold qpOf
    apply List.ext_getElem?
    intro i
    rw [mapRange_getElem?, List.getElem?_replicate]
    simp
  · rw [emptyBoard_eq]
    unfold rowBoard
    apply mkBoard_congr
    intro r c _ _
    simp

theorem cspInit_board (n : Nat) : (cspInit n).boardState = colBoard n [] := by
  unfold cspInit
  simp only
  rw [emptyBoard_eq]
  unfold colBoard
  apply mkBoard_congr
  intro r c _ _
  simp

/-- The uninterrupted CSP search mirrors the uninterrupted DFS search. -/
theorem csp_matches_dfs (n : Nat) :
    CspMatches n (solveT n (n + 1) 0 (fullDomain n) (cspInit n))
      (dfsT n (n + 1) 0 (dfsInit n)) (cspInit n) ((findSol n (n + 1) []).getD []) := by
  have h := (solveT_spec n (n + 1) [] (fullDomain n) (cspInit n) (by simp) (by simp)
    (domOK_full n) (cspInit_board n)).1
  rw [dfsInit_eq]
  exact h

/-- The first call `solve(0, domain)` is among the recorded calls. -/
theorem csp_first_call (n : Nat) :
    (0, fullDomain n, emptyBoard n) ∈
      (solveT n (n + 1) 0 (fullDomain n) (cspInit n)).2.1.calls :=
  (solveT_spec n (n + 1) [] (fullDomain n) (cspInit n) (by simp) (by simp)
    (domOK_full n) (cspInit_board n)).2 (by omega)

/-! ## Boards of complete placements -/

theorem count_map_eq_sum {α : Type} (l : List α) (h : α → Bool) :
    (l.map h).count true = (l.map fun x => if h x = true then 1 else 0).sum := by
  induction l with
  | nil => rfl
  | cons a l ih =>
    simp only [List.map_cons, List.count_cons, List.sum_cons, ih]
    cases h a
    · simp
    · simp; omega

theorem sum_map_zero {α : Type} (l : List α) : (l.map fun _ => 0).sum = 0 := by
  induction l with
  | nil => rfl
  | cons a l ih => simp

theorem sum_swap {α β : Type} (l1 : List α) (l2 : List β) (F : α → β → Nat) :
    (l1.map fun r => (l2.map fun c => F r c).sum).sum =
      (l2.map fun c => (l1.map fun r => F r c).sum).sum := by
  induction l1 with
  | nil => simp
  | cons a l1 ih =>
    simp only [List.map_cons, List.sum_cons, ih]
    rw [← List.sum_map_add]

theorem queenCount_mkBoard (n : Nat) (f : Nat → Nat → Bool) :
    queenCount (mkBoard n f) =
      ((List.range n).map fun r =>
        ((List.range n).map fun c => if f r c = true then 1 else 0).sum).sum := by
  unfold queenCount mkBoard
  rw [List.map_map]
  apply congrArg
  apply mapRange_congr
  intro r _
  simp only [Function.comp]
  rw [count_map_eq_sum]

theorem queenCount_transpose (n : Nat) (f : Nat → Nat → Bool) :
    queenCount (mkBoard n fun r c => f c r) = queenCount (mkBoard n f) := by
  rw [queenCount_mkBoard, queenCount_mkBoard, sum_swap]

theorem sum_indicator_range (n c0 : Nat) (h : c0 < n) :
    ((List.range n).map fun c => if decide (some c0 = some c) = true then 1 else 0).sum = 1 := by
  induction n with
  | zero => omega
  | succ n ih =>
    rw [List.range_succ, List.map_append, List.sum_append]
    by_cases hc : c0 = n
    · subst hc
      have hz : ((List.range c0).map fun c => if decide (some c0 = some c) = true then 1 else 0)
          = (List.range c0).map fun _ => 0 := by
        apply mapRange_congr
        intro i hi
        have : ¬ c0 = i := by omega
        simp [this]
      rw [hz, sum_map_zero]
      simp
    · have hn : ¬ c0 = n := hc
      rw [ih (by omega)]
      simp [hn]

theorem queenCount_rowBoard (n : Nat) (f : List Nat) (hlen : f.length = n)
    (hlt : ∀ x ∈ f, x < n) : queenCount (rowBoard n f) = n := by
  unfold rowBoard
  rw [queenCount_mkBoard]
  have h1 : ((List.range n).map fun r =>
      ((List.range n).map fun c => if decide (f[r]? = some c) = true then 1 else 0).sum)
      = (List.range n).map fun _ => 1 := by
    apply mapRange_congr
    intro r hr
    have hr' : r < f.length := by omega
    rw [List.getElem?_eq_getElem hr']
    exact sum_indicator_range n f[r] (hlt _ (List.getElem_mem _))
  rw [h1]
  simp

theorem queenCount_colBoard (n : Nat) (f : List Nat) (hlen : f.length = n)
    (hlt : ∀ x ∈ f, x < n) : queenCount (colBoard n f) = n := by
  have h := queenCount_transpose n fun r c => decide (f[r]? = some c)
  unfold colBoard
  rw [h]
  exact queenCount_rowBoard n f hlen hlt

theorem safe_pair (f : List Nat) (hs : Safe f) (r1 c1 r2 c2 : Nat) (h1 : f[r1]? = some c1)
    (h2 : f[r2]? = some c2) (hne : (r1, c1) ≠ (r2, c2)) :
    r1 ≠ r2 ∧ c1 ≠ c2 ∧ r1 + c1 ≠ r2 + c2 ∧ r1 + c2 ≠ r2 + c1 := by
  have hl1 : r1 < f.length := by
    by_contra hc
    rw [List.getElem?_eq_none (by omega)] at h1
    exact Option.noConfusion h1
  have hl2 : r2 < f.length := by
    by_contra hc
    rw [List.getElem?_eq_none (by omega)] at h2
    exact Option.noConfusion h2
  have hg1 : f.getD r1 0 = c1 := by rw [List.getD_eq_getElem?_getD, h1]; rfl
  have hg2 : f.getD r2 0 = c2 := by rw [List.getD_eq_getElem?_getD, h2]; rfl
  rcases Nat.lt_trichotomy r1 r2 with h | h | h
  · have := hs r1 r2 h hl2
    rw [hg1, hg2] at this
    omega
  · subst h
    rw [h1] at h2
    simp only [Option.some.injEq] at h2
    subst h2
    exact absurd rfl hne
  · have := hs r2 r1 h hl1
    rw [hg1, hg2] at this
    omega

theorem peaceful_rowBoard (n : Nat) (f : List Nat) (hs : Safe f) : Peaceful (rowBoard n f) := by
  intro r1 c1 r2 c2 h1 h2 hne
  rw [getCell_rowBoard] at h1 h2
  simp only [Bool.and_eq_true, decide_eq_true_eq] at h1 h2
  exact safe_pair f hs r1 c1 r2 c2 h1.2 h2.2 hne

theorem peaceful_colBoard (n : Nat) (f : List Nat) (hs : Safe f) : Peaceful (colBoard n f) := by
  intro r1 c1 r2 c2 h1 h2 hne
  rw [getCell_colBoard] at h1 h2
  simp only [Bool.and_eq_true, decide_eq_true_eq] at h1 h2
  have hne' : (c1, r1) ≠ (c2, r2) := by
    intro h
    apply hne
    simp only [Prod.mk.injEq] at h ⊢
    exact ⟨h.2, h.1⟩
  have := safe_pair f hs c1 r1 c2 r2 h1.2 h2.2 hne'
  omega

theorem find?_range_unique (n r0 : Nat) (pred : Nat → Bool) (h0 : r0 < n)
    (hp : ∀ r, pred r = true ↔ r = r0) : (List.range n).find? pred = some r0 := by
  cases h : (List.range n).find? pred with
  | none =>
    rw [List.find?_eq_none] at h
    exact absurd ((hp r0).2 rfl) (h r0 (List.mem_range.2 h0))
  | some x =>
    have := List.find?_some h
    rw [(hp x).1 this]

theorem columnQueens_colBoard (n : Nat) (p : List Nat) (hlt : ∀ x ∈ p, x < n) :
    columnQueens (colBoard n p) = qpOf n p := by
  unfold columnQueens qpOf
  have hl : (colBoard n p).length = n := by unfold colBoard; exact mkBoard_length _ _
  rw [hl]
  apply mapRange_congr
  intro c hc
  cases hpc : p[c]? with
  | none =>
    have : (List.range n).find? (fun r => getCell (colBoard n p) r c) = none := by
      rw [List.find?_eq_none]
      intro r _
      rw [getCell_colBoard, hpc]
      simp
    rw [this]
  | some r0 =>
    have hr0 : r0 < n := by
      have hcl : c < p.length := by
        by_contra hcc
        rw [List.getElem?_eq_none (by omega)] at hpc
        exact Option.noConfusion hpc
      rw [List.getElem?_eq_getElem hcl] at hpc
      simp only [Option.some.injEq] at hpc
      subst hpc
      exact hlt _ (List.getElem_mem _)
    have := find?_range_unique n r0 (fun r => getCell (colBoard n p) r c) hr0 (by
      intro r
      show getCell (colBoard n p) r c = true ↔ r = r0
      rw [getCell_colBoard, hpc]
      simp only [Bool.and_eq_true, decide_eq_true_eq, Option.some.injEq]
      constructor
      · intro h; exact h.2.symm
      · intro h; subst h; exact ⟨⟨hr0, hc⟩, rfl⟩)
    rw [this]

/-! ## The uninterrupted searches -/

theorem start_stopFlag (n : Nat) (alg : Algorithm) (sched : List (List (List Event))) :
    stopFlag (handleSolveStart (initWorld n alg sched)) = false := by
  simp [stopFlag, handleSolveStart, initWorld]

theorem replay_start (n : Nat) (alg : Algorithm) (steps : List Step) :
    ∃ w, replay steps (handleSolveStart (initWorld n alg [])) = some w ∧ stopFlag w = false := by
  refine ⟨_, replay_calm steps (handleSolveStart (initWorld n alg [])) rfl
    (start_stopFlag n alg []) rfl rfl (by simp [handleSolveStart, initWorld, calm]), ?_⟩
  rw [stopFlag_sched, stopFlag_publishAll, start_stopFlag]

/-- The uninterrupted DFS search returns, with the result and locals of its trace. -/
theorem dfsRun_calm (n : Nat) :
    ∃ w, dfsRun (handleSolveStart (initWorld n .dfs [])) =
      some ((dfsT n (n + 1) 0 (dfsInit n)).1, (dfsT n (n + 1) 0 (dfsInit n)).2.1, w) := by
  have h := dfs_sim n (n + 1) 0 (dfsInit n) (handleSolveStart (initWorld n .dfs []))
    (by omega) (by omega)
  unfold SimAt at h
  obtain ⟨w, hw, hst⟩ := replay_start n .dfs (dfsT n (n + 1) 0 (dfsInit n)).2.2
  rw [hw] at h
  obtain ⟨r, s, hrun, hrs⟩ := h
  obtain ⟨rfl, rfl⟩ := hrs hst
  exact ⟨w, hrun⟩

/-- The uninterrupted CSP search returns, with the result and locals of its trace. -/
theorem cspRun_calm (n : Nat) :
    ∃ w, cspRun (handleSolveStart (initWorld n .csp [])) =
      some ((solveT n (n + 1) 0 (fullDomain n) (cspInit n)).1,
        (solveT n (n + 1) 0 (fullDomain n) (cspInit n)).2.1, w) := by
  have h := solve_sim n (n + 1) 0 (fullDomain n) (cspInit n)
    (handleSolveStart (initWorld n .csp [])) (by omega) (by omega)
  unfold SimAt at h
  obtain ⟨w, hw, hst⟩ := replay_start n .csp
    (solveT n (n + 1) 0 (fullDomain n) (cspInit n)).2.2
  rw [hw] at h
  obtain ⟨r, s, hrun, hrs⟩ := h
  obtain ⟨rfl, rfl⟩ := hrs hst
  exact ⟨w, hrun⟩

/-- The DFS search in terms of the first complete placement. -/
theorem dfs_pure (n : Nat) :
    (dfsT n (n + 1) 0 (dfsInit n)).1 = (findSol n (n + 1) []).isSome ∧
    (dfsT n (n + 1) 0 (dfsInit n)).2.1.boardState =
      rowBoard n ((findSol n (n + 1) []).getD []) ∧
    ∀ f, findSol n (n + 1) [] = some f →
      (dfsT n (n + 1) 0 (dfsInit n)).2.2.getLast? = some ⟨rowBoard n f, .solution⟩ := by
  have h := dfsT_spec n (n + 1) [] (by simp)
  rw [dfsInit_eq]
  simp only [List.length_nil] at h
  refine ⟨h.1, ?_, h.2.2⟩
  rw [h.2.1]
  rfl

/-- The CSP search in terms of the first complete placement. -/
theorem csp_pure (n : Nat) :
    (solveT n (n + 1) 0 (fullDomain n) (cspInit n)).1 = (findSol n (n + 1) []).isSome ∧
    (solveT n (n + 1) 0 (fullDomain n) (cspInit n)).2.1.boardState =
      colBoard n ((findSol n (n + 1) []).getD []) ∧
    ∀ f, findSol n (n + 1) [] = some f →
      (solveT n (n + 1) 0 (fullDomain n) (cspInit n)).2.2.getLast? =
        some ⟨colBoard n f, .solution⟩ := by
  obtain ⟨h1, h2, h3, _⟩ := csp_matches_dfs n
  obtain ⟨d1, _, d3⟩ := dfs_pure n
  refine ⟨by rw [h1, d1], h3, ?_⟩
  intro f hf
  rw [h2, List.getLast?_map, d3 f hf]
  simp [swapStep, swapMsg, transposeBoard_rowBoard]

/-- What the uninterrupted run leaves when the search succeeds. -/
theorem run_success (n : Nat) (alg : Algorithm) (b : Board) (hr : pureResult n alg = true)
    (hl : (pureTrace n alg).getLast? = some ⟨b, .solution⟩) :
    ∃ w, runWith n alg [] = some w ∧ w.board = b ∧ w.message = Msg.solution ∧
      (trace n alg).getLast? = some ⟨b, .solution⟩ := by
  obtain ⟨w, hw, _, hb, hm, _⟩ := runWith_calm n alg [] (by simp [calm])
  refine ⟨w, hw, ?_, ?_, ?_⟩
  · rw [hb, hl]; rfl
  · rw [hm, hr, hl]; rfl
  · rw [trace_eq, hl]

/-! ## Correctness of the two searches -/

/-- C1: for every board size n ≥ 1 other than 2 and 3 and for each algorithm, the
uninterrupted run returns with the search reporting success; the last published step is
the "Solution found" step, its board is the live board and the board shown at the end,
and it holds exactly n queens, no two of them on a common row, column or diagonal. -/
theorem finds_valid_solution (n : Nat) (alg : Algorithm) (h1 : 1 ≤ n) (h2 : n ≠ 2)
    (h3 : n ≠ 3) :
    ∃ b w wf, searchRun (handleSolveStart (initWorld n alg [])) = some (true, b, w) ∧
      runWith n alg [] = some wf ∧ wf.board = b ∧ wf.message = Msg.solution ∧
      (trace n alg).getLast? = some ⟨b, Msg.solution⟩ ∧
      queenCount b = n ∧ Peaceful b := by
  obtain ⟨f, hf, hlen, hlt, hs⟩ := findSol_isSome n (by omega)
  cases alg with
  | dfs =>
    obtain ⟨d1, d2, d3⟩ := dfs_pure n
    rw [hf] at d1 d2
    simp only [Option.isSome_some, Option.getD_some] at d1 d2
    obtain ⟨w, hw⟩ := dfsRun_calm n
    obtain ⟨wf, hwf, hb, hm, hl⟩ := run_success n .dfs (rowBoard n f) d1 (d3 f hf)
    refine ⟨rowBoard n f, w, wf, ?_, hwf, hb, hm, hl, queenCount_rowBoard n f hlen hlt,
      peaceful_rowBoard n f hs⟩
    have ha : (handleSolveStart (initWorld n .dfs [])).algorithm = .dfs := rfl
    simp only [searchRun, ha, hw, Option.map_some', d1, d2]
  | csp =>
    obtain ⟨c1, c2, c3⟩ := csp_pure n
    rw [hf] at c1 c2
    simp only [Option.isSome_some, Option.getD_some] at c1 c2
    obtain ⟨w, hw⟩ := cspRun_calm n
    obtain ⟨wf, hwf, hb, hm, hl⟩ := run_success n .csp (colBoard n f) c1 (c3 f hf)
    refine ⟨colBoard n f, w, wf, ?_, hwf, hb, hm, hl, queenCount_colBoard n f hlen hlt,
      peaceful_colBoard n f hs⟩
    have ha : (handleSolveStart (initWorld n .csp [])).algorithm = .csp := rfl
    simp only [searchRun, ha, hw, Option.map_some', c1, c2]

/-- A concrete instance: n = 5 and the CSP search. -/
theorem finds_valid_solution_witness :
    1 ≤ 5 ∧ 5 ≠ 2 ∧ 5 ≠ 3 ∧
    ∃ b w wf, searchRun (handleSolveStart (initWorld 5 .csp [])) = some (true, b, w) ∧
      runWith 5 .csp [] = some wf ∧ wf.board = b ∧ wf.message = Msg.solution ∧
      (trace 5 .csp).getLast? = some ⟨b, Msg.solution⟩ ∧
      queenCount b = 5 ∧ Peaceful b :=
  ⟨by decide, by decide, by decide,
    finds_valid_solution 5 .csp (by decide) (by decide) (by decide)⟩

/-- Every guard evaluation of the uninterrupted CSP run is made on a candidate row
compatible with the placement, and there are as many of them as "Placing" steps. -/
theorem csp_guards_good (n : Nat) :
    ∃ r s w, cspRun (handleSolveStart (initWorld n .csp [])) = some (r, s, w) ∧
      (∀ g ∈ s.guards, GoodGuard n g) ∧ s.guards.length = placings (trace n .csp) := by
  obtain ⟨w, hw⟩ := cspRun_calm n
  obtain ⟨_, _, _, _, h5, _, h7⟩ := csp_matches_dfs n
  refine ⟨_, _, w, hw, ?_, ?_⟩
  · intro g hg
    rcases h5 g hg with h | h
    · simp [cspInit] at h
    · exact h
  · rw [h7, trace_eq]
    simp [cspInit, pureTrace]

theorem goodGuard_free (n : Nat) (g : Nat × Nat × Board) (h : GoodGuard n g) :
    (∀ c, getCell g.2.2 g.1 c = false) ∧ (!getCell g.2.2 g.1 g.2.1) = true := by
  obtain ⟨p, _, hb, hc⟩ := h
  have hfree : ∀ c, getCell g.2.2 g.1 c = false := by
    intro c
    rw [hb]
    exact row_free_of_compat n p p.length g.1 c hc
  exact ⟨hfree, by rw [hfree]; rfl⟩

/-- C9, as stated, fails: for no board size does the uninterrupted CSP run evaluate the
guard `!boardState[row][col]` on an occupied cell, nor on a candidate row that already
holds a queen in any column. -/
theorem guard_never_false :
    ¬ ∃ (n : Nat) (r : Bool) (s : CspState) (w : World),
      cspRun (handleSolveStart (initWorld n .csp [])) = some (r, s, w) ∧
      ∃ g ∈ s.guards, getCell g.2.2 g.1 g.2.1 = true ∨ ∃ c, getCell g.2.2 g.1 c = true := by
  rintro ⟨n, r, s, w, hrun, g, hg, hbad⟩
  obtain ⟨r2, s2, w2, hrun2, hgood, _⟩ := csp_guards_good n
  rw [hrun] at hrun2
  simp only [Option.some.injEq, Prod.mk.injEq] at hrun2
  obtain ⟨_, rfl, _⟩ := hrun2
  obtain ⟨hfree, _⟩ := goodGuard_free n g (hgood g hg)
  rcases hbad with h | ⟨c, h⟩
  · rw [hfree] at h
    exact Bool.noConfusion h
  · rw [hfree] at h
    exact Bool.noConfusion h

/-- C9, amended: for every board size the uninterrupted CSP run returns, and at every
evaluation of the guard `!boardState[row][col]` the candidate row taken from
`currentDomain[col]` holds no queen on the live board, in any column, so the guard is
true; every guard evaluation is followed by a placement (there are as many guard
evaluations as "Placing" steps). -/
theorem candidate_rows_are_free (n : Nat) :
    ∃ r s w, cspRun (handleSolveStart (initWorld n .csp [])) = some (r, s, w) ∧
      (∀ g ∈ s.guards, (∀ c, getCell g.2.2 g.1 c = false) ∧
        (!getCell g.2.2 g.1 g.2.1) = true) ∧
      s.guards.length = placings (trace n .csp) := by
  obtain ⟨r, s, w, hrun, hgood, hlen⟩ := csp_guards_good n
  exact ⟨r, s, w, hrun, fun g hg => goodGuard_free n g (hgood g hg), hlen⟩

/-- C10: the CSP search is the DFS search with rows and columns swapped.  For every n
the uninterrupted CSP run publishes as many steps as the DFS run, its k-th board is the
transpose of the k-th DFS board and its k-th message is the DFS message with row and
column swapped ("Placing" for "Trying"); both searches return the same result and the
final live boards are transposes; and at every call `solve(col, currentDomain)` with
col < n, `currentDomain[col]` is the increasing list of the rows `isSafe` accepts for
the transposed placement. -/
theorem csp_is_transposed_dfs (n : Nat) :
    trace n .csp = (trace n .dfs).map swapStep ∧
    (trace n .csp).length = (trace n .dfs).length ∧
    (∀ k : Nat, ((trace n .csp)[k]?).map Step.board =
      ((trace n .dfs)[k]?).map fun (st : Step) => transposeBoard st.board) ∧
    (∀ k : Nat, ((trace n .csp)[k]?).map Step.msg =
      ((trace n .dfs)[k]?).map fun (st : Step) => swapMsg st.msg) ∧
    (∃ r bd wd wc, searchRun (handleSolveStart (initWorld n .dfs [])) = some (r, bd, wd) ∧
      searchRun (handleSolveStart (initWorld n .csp [])) = some (r, transposeBoard bd, wc)) ∧
    ∃ r s w, cspRun (handleSolveStart (initWorld n .csp [])) = some (r, s, w) ∧
      (0, fullDomain n, emptyBoard n) ∈ s.calls ∧
      ∀ e ∈ s.calls, e.1 < n →
        e.2.1.getD e.1 [] =
          (List.range n).filter fun row => isSafe (columnQueens e.2.2) e.1 row := by
  obtain ⟨m1, m2, m3, m4, _, _, _⟩ := csp_matches_dfs n
  have ht : trace n .csp = (trace n .dfs).map swapStep := by
    rw [trace_eq, trace_eq]
    exact m2
  obtain ⟨wd, hwd⟩ := dfsRun_calm n
  obtain ⟨wc, hwc⟩ := cspRun_calm n
  obtain ⟨d1, d2, _⟩ := dfs_pure n
  refine ⟨ht, by rw [ht, List.length_map], ?_, ?_, ?_, ?_⟩
  · intro k
    rw [ht, List.getElem?_map]
    cases (trace n .dfs)[k]? <;> rfl
  · intro k
    rw [ht, List.getElem?_map]
    cases (trace n .dfs)[k]? <;> rfl
  · refine ⟨(dfsT n (n + 1) 0 (dfsInit n)).1,
      (dfsT n (n + 1) 0 (dfsInit n)).2.1.boardState, wd, wc, ?_, ?_⟩
    · have ha : (handleSolveStart (initWorld n .dfs [])).algorithm = .dfs := rfl
      simp only [searchRun, ha, hwd, Option.map_some']
    · have ha : (handleSolveStart (initWorld n .csp [])).algorithm = .csp := rfl
      simp only [searchRun, ha, hwc, Option.map_some', m1, m3, d2, transposeBoard_rowBoard]
  · refine ⟨_, _, wc, hwc, csp_first_call n, ?_⟩
    intro e he hlt
    rcases m4 e he with h | h
    · simp [cspInit] at h
    · obtain ⟨p, hp1, hp2, hp3, hb, hdom⟩ := h
      rw [List.getD_eq_getElem?_getD, ← hp1, hdom.2 p.length (Nat.le_refl _) (by omega), hb,
        columnQueens_colBoard n p hp3]
      simp only [Option.getD_some]
      apply List.filter_congr
      intro row _
      rw [isSafe_qpOf n p row hp2]

end NQueens
